import Mathlib

/-!
Verification development for the "gnew" content-addressed version-control
core (Rust sources: `src/storage/serialize.rs`, `src/storage/transport.rs`,
`src/repo/repository.rs`, `src/repo/object.rs`).

The embedding works at the byte level for the codec (bytes are `List Nat`,
strings are their UTF-8 byte lists) and at the state level for the
repository operations (the object store is a partial map from hashes, the
worktree is an association list from paths to file contents).

The hashing primitive is out of scope of the specification ("treat as an
opaque 160-bit digest function over bytes"), so every codec definition is
parameterised by an arbitrary `digest : List Nat → Hash`.  A `Hash` is a
160-bit value, rendered as 40 lowercase hex characters exactly as the
`sha1::Digest` display/parse used by the sources.

Rust operations that can panic (`unwrap`, `assert!`) or diverge are
modelled in `Option (Except Err α)`: `none` means "does not return
normally" (panic or non-termination), `some (.error e)` an `Err` result,
`some (.ok a)` a normal return.
-/

namespace Gnew

/-- 160-bit digest space: 40 hex digits. -/
abbrev HS : Nat := 16 ^ 40

/-- A 160-bit object digest (`struct Hash(sha1::Digest)`). -/
abbrev Hash := Fin HS

/-- Build a hash from a numeral (for concrete test objects). -/
def mkHash (n : Nat) : Hash := ⟨n % HS, Nat.mod_lt _ (by positivity)⟩

/-- The placeholder digest `Hash::new()` used before an object is stamped. -/
def hash0 : Hash := mkHash 0

/-- Lowercase hex character (byte value) for a digit `d < 16`,
as produced by the `sha1::Digest` display. -/
def hexChar (d : Nat) : Nat := if d < 10 then 48 + d else 87 + d

/-- Hex digit value of a character byte; accepts both cases like
`u8::from_str_radix(-, 16)` inside `sha1::Digest::from_str`. -/
def hexVal (c : Nat) : Option Nat :=
  if 48 ≤ c ∧ c ≤ 57 then some (c - 48)
  else if 97 ≤ c ∧ c ≤ 102 then some (c - 87)
  else if 65 ≤ c ∧ c ≤ 70 then some (c - 55)
  else none

/-- Big-endian fixed-width base-16 digits of `v` (width `n`). -/
def toHexDigits : Nat → Nat → List Nat
  | 0, _ => []
  | n + 1, v => toHexDigits n (v / 16) ++ [v % 16]

/-- Value of a big-endian base-16 digit list. -/
def fromHex (ds : List Nat) : Nat := ds.foldl (fun a d => 16 * a + d) 0

/-- The 40 lowercase hex character bytes of a hash (its display form). -/
def hashChars (h : Hash) : List Nat := (toHexDigits 40 h.val).map hexChar

/-- Parse the value of each hex character byte of a list. -/
def hexVals : List Nat → Option (List Nat)
  | [] => some []
  | c :: cs =>
    match hexVal c, hexVals cs with
    | some d, some ds => some (d :: ds)
    | _, _ => none

/-- `Hash::from_str` on raw bytes: exactly 40 hex characters. -/
def parseHashBytes (bs : List Nat) : Option Hash :=
  if bs.length = 40 then
    match hexVals bs with
    | some ds => some ⟨fromHex ds % HS, Nat.mod_lt _ (by positivity)⟩
    | none => none
  else none

/-- Big-endian decimal digits, fuel-indexed (structural recursion so the
kernel can evaluate it; the fuel never runs out when it starts at `n`). -/
def decDigitsAux : Nat → Nat → List Nat
  | 0, n => [n % 10]
  | fuel + 1, n => if n < 10 then [n] else decDigitsAux fuel (n / 10) ++ [n % 10]

/-- Big-endian decimal digits of a natural number (at least one digit). -/
def decDigits (n : Nat) : List Nat := decDigitsAux n n

/-- Value of a big-endian decimal digit list. -/
def fromDec (ds : List Nat) : Nat := ds.foldl (fun a d => 10 * a + d) 0

/-- Decimal character bytes of a natural number. -/
def renderNat (n : Nat) : List Nat := (decDigits n).map (· + 48)

/-- Decimal character bytes of an integer, as `i64` Display produces. -/
def renderInt (t : Int) : List Nat :=
  if t < 0 then 45 :: renderNat (-t).toNat else renderNat t.toNat

/-- Parse the value of each decimal character byte of a list. -/
def decVals : List Nat → Option (List Nat)
  | [] => some []
  | c :: cs =>
    if 48 ≤ c ∧ c ≤ 57 then
      match decVals cs with
      | some ds => some ((c - 48) :: ds)
      | none => none
    else none

/-- Digit-run part of `i64::from_str`: nonempty, all decimal digits. -/
def parseDecNat (bs : List Nat) : Option Nat :=
  match bs with
  | [] => none
  | _ =>
    match decVals bs with
    | some ds => some (fromDec ds)
    | none => none

/-- `i64::from_str` on raw bytes: optional sign, digits, overflow check. -/
def parseI64 (bs : List Nat) : Option Int :=
  match bs with
  | 43 :: rest =>
    match parseDecNat rest with
    | some n => if n < 2 ^ 63 then some (n : Int) else none
    | none => none
  | 45 :: rest =>
    match parseDecNat rest with
    | some n => if n ≤ 2 ^ 63 then some (-(n : Int)) else none
    | none => none
  | _ =>
    match parseDecNat bs with
    | some n => if n < 2 ^ 63 then some (n : Int) else none
    | none => none

/-- `slice::strip_prefix`: drop a leading tag, or fail. -/
def stripTag : List Nat → List Nat → Option (List Nat)
  | [], l => some l
  | _ :: _, [] => none
  | p :: ps, x :: xs => if p = x then stripTag ps xs else none

/-- `slice::split` on a separator byte: always at least one chunk. -/
def splitSep (s : Nat) : List Nat → List (List Nat)
  | [] => [[]]
  | x :: xs =>
    if x = s then [] :: splitSep s xs
    else
      match splitSep s xs with
      | [] => [[x]]
      | c :: cs => (x :: c) :: cs

/-- `≤` of the lexicographic byte-slice ordering `[u8]::cmp`. -/
def lexLeB : List Nat → List Nat → Bool
  | [], _ => true
  | _ :: _, [] => false
  | a :: as, b :: bs => if a < b then true else if b < a then false else lexLeB as bs

/-! ## Object model (`src/repo/object.rs`) -/

/-- `enum TreeEntryKind { Blob, Tree }`. -/
inductive EntryKind where
  | blob
  | tree
deriving DecidableEq, Repr

/-- `struct TreeEntry { kind, hash, name }`; the name is kept as its
UTF-8 byte list. -/
structure TreeEntry where
  kind : EntryKind
  hash : Hash
  name : List Nat
deriving DecidableEq, Repr

/-- `struct Tree { hash, entries }`. -/
structure Tree where
  hash : Hash
  entries : List TreeEntry
deriving DecidableEq, Repr

/-- `struct Blob { hash, content }`. -/
structure Blob where
  hash : Hash
  content : List Nat
deriving DecidableEq, Repr

/-- `struct Commit { hash, tree, parent, author, time, msg }`; `time` is
the millisecond timestamp (`DateTime<Utc>` is serialized via
`timestamp_millis`), author and msg are UTF-8 byte lists. -/
structure Commit where
  hash : Hash
  tree : Hash
  parent : Option Hash
  author : List Nat
  time : Int
  msg : List Nat
deriving DecidableEq, Repr

/-! ## Codec (`src/storage/serialize.rs`) -/

/-- The bytes `"blob\0"`. -/
def blobTag : List Nat := [98, 108, 111, 98, 0]

/-- The bytes `"tree\0"`. -/
def treeTag : List Nat := [116, 114, 101, 101, 0]

/-- The bytes `"commit\0"`. -/
def commitTag : List Nat := [99, 111, 109, 109, 105, 116, 0]

/-- The 4-byte display of a `TreeEntryKind` (`"blob"` / `"tree"`). -/
def kindTag : EntryKind → List Nat
  | .blob => [98, 108, 111, 98]
  | .tree => [116, 114, 101, 101]

/-- One serialized tree entry: `<type> <filename><NUL><hash>`. -/
def renderEntry (e : TreeEntry) : List Nat :=
  kindTag e.kind ++ [32] ++ e.name ++ [0] ++ hashChars e.hash

/-- The comparator `|x, y| x[5..].cmp(&y[5..])` used to sort rendered
entries (both kind tags are 4 bytes, so offset 5 starts the name). -/
def rKey (x y : List Nat) : Prop := lexLeB (x.drop 5) (y.drop 5) = true

instance : DecidableRel rKey := fun x y =>
  decidable_of_iff (lexLeB (x.drop 5) (y.drop 5) = true) Iff.rfl

section Codec

variable (digest : List Nat → Hash)

/-- `serialize_blob`: bytes produced, and the blob with its stamped hash. -/
def serializeBlob (b : Blob) : List Nat × Blob :=
  let obj := blobTag ++ b.content
  (obj, { b with hash := digest obj })

/-- `serialize_tree`: render each entry, sort the rendered byte strings by
their name portion (`sort_unstable_by` on a two-element tie keeps input
order, like insertion sort), concatenate, stamp. -/
def serializeTree (t : Tree) : List Nat × Tree :=
  let obj := treeTag ++ (List.insertionSort rKey (t.entries.map renderEntry)).flatten
  (obj, { t with hash := digest obj })

/-- The textual body written by `impl fmt::Display for Commit`. -/
def commitBody (c : Commit) : List Nat :=
  [116, 114, 101, 101, 32] ++ hashChars c.tree ++ [10] ++
    (match c.parent with
     | some p => [112, 97, 114, 101, 110, 116, 32] ++ hashChars p ++ [10]
     | none => []) ++
    [97, 117, 116, 104, 111, 114, 32] ++ c.author ++ [10] ++
    [116, 105, 109, 101, 32] ++ renderInt c.time ++ [10] ++
    [10] ++ c.msg ++ [10]

/-- `serialize_commit`: bytes produced, and the commit with its stamped
hash. -/
def serializeCommit (c : Commit) : List Nat × Commit :=
  let obj := commitTag ++ commitBody c
  (obj, { c with hash := digest obj })

/-- `deserialize_blob`. -/
def deserializeBlob (obj : List Nat) : Option Blob :=
  (stripTag blobTag obj).map fun content => ⟨digest obj, content⟩

/-- The `try_fold` body of `deserialize_tree_entries`: `a` is the pending
`<type> <filename>` chunk, the list holds the remaining NUL-separated
chunks, `acc` the entries already parsed.  Each following chunk must
begin with 40 hash characters; what remains after them becomes the next
pending chunk, and the final pending chunk must be empty. -/
def parseChunks : List Nat → List (List Nat) → List TreeEntry → Option (List TreeEntry)
  | a, [], acc => if a = [] then some acc else none
  | a, b :: bs, acc =>
    if 5 ≤ a.length then
      let kind := a.take 4
      let name := a.drop 5
      if 40 ≤ b.length then
        match parseHashBytes (b.take 40) with
        | none => none
        | some h =>
          let next := b.drop 40
          if kind = kindTag .blob then
            parseChunks next bs (acc ++ [⟨.blob, h, name⟩])
          else if kind = kindTag .tree then
            parseChunks next bs (acc ++ [⟨.tree, h, name⟩])
          else none
      else none
    else none

/-- `deserialize_tree_entries` on the bytes after the `"tree\0"` tag. -/
def parseTreeEntries (obj : List Nat) : Option (List TreeEntry) :=
  match splitSep 0 obj with
  | [] => some []
  | first :: rest => parseChunks first rest []

/-- `deserialize_tree`. -/
def deserializeTree (obj : List Nat) : Option Tree :=
  match stripTag treeTag obj with
  | none => none
  | some o =>
    match parseTreeEntries o with
    | none => none
    | some es => some ⟨digest obj, es⟩

/-- `deserialize_commit_data` on the bytes after the `"commit\0"` tag.
Mirrors the newline-chunk iterator of the source: the chunk after the
`time` header is consumed without being checked, the next chunk is the
message, the chunk after it must be empty, and any further chunks are
ignored. -/
def parseCommitData (obj : List Nat) : Option Commit :=
  match splitSep 10 obj with
  | [] => none
  | c0 :: rest =>
    match stripTag [116, 114, 101, 101, 32] c0 with
    | none => none
    | some hb =>
      match parseHashBytes hb with
      | none => none
      | some treeH =>
        match rest with
        | [] => none
        | c1 :: rest1 =>
          let step2 : Option (Option Hash × List Nat × List (List Nat)) :=
            match stripTag [112, 97, 114, 101, 110, 116, 32] c1 with
            | none => some (none, c1, rest1)
            | some pb =>
              match parseHashBytes pb with
              | none => none
              | some ph =>
                match rest1 with
                | [] => none
                | c2 :: rest2 => some (some ph, c2, rest2)
          match step2 with
          | none => none
          | some (parent, card, rest2) =>
            match stripTag [97, 117, 116, 104, 111, 114, 32] card with
            | none => none
            | some author =>
              match rest2 with
              | [] => none
              | ct :: rest3 =>
                match stripTag [116, 105, 109, 101, 32] ct with
                | none => none
                | some tb =>
                  match parseI64 tb with
                  | none => none
                  | some time =>
                    match rest3 with
                    | [] => none
                    | _blank :: rest4 =>
                      match rest4 with
                      | [] => none
                      | m :: rest5 =>
                        match rest5 with
                        | [] => none
                        | fin :: _ =>
                          if fin = [] then
                            some ⟨hash0, treeH, parent, author, time, m⟩
                          else none

/-- `deserialize_commit`. -/
def deserializeCommit (obj : List Nat) : Option Commit :=
  match stripTag commitTag obj with
  | none => none
  | some o =>
    match parseCommitData o with
    | none => none
    | some c => some { c with hash := digest obj }

end Codec

/-! ## Errors (`src/wd/ui.rs`) and the panic-aware result layer -/

/-- `enum Error` of `src/wd/ui.rs` (payloads that the verified claims do
not inspect are dropped). -/
inductive Err where
  | branchExists
  | checkoutFailed
  | dirtyWorktree
  | fileNotFound
  | ioError
  | mergeFailed
  | noRepository
  | nothingToMerge
  | objectCorrupted
  | objectMissing
  | objectNotFound
  | pushFailed
  | referenceNotFound
  | revisionNotFound
  | repositoryExists
deriving DecidableEq, Repr

instance {ε α : Type} [DecidableEq ε] [DecidableEq α] : DecidableEq (Except ε α) :=
  fun x y =>
    match x, y with
    | .ok a, .ok b => decidable_of_iff (a = b) (by simp)
    | .error e, .error f => decidable_of_iff (e = f) (by simp)
    | .ok _, .error _ => isFalse (by simp)
    | .error _, .ok _ => isFalse (by simp)

/-- Result of a Rust operation: `none` = does not return normally
(panic or non-termination), otherwise an `Err`-carrying `Result`. -/
abbrev PE (α : Type) := Option (Except Err α)

/-- Normal return. -/
def peOk {α : Type} (a : α) : PE α := some (.ok a)

/-- `Err` return. -/
def peErr {α : Type} (e : Err) : PE α := some (.error e)

/-- Sequencing in `PE`: propagate panic and error. -/
def peBind {α β : Type} : PE α → (α → PE β) → PE β
  | none, _ => none
  | some (.error e), _ => some (.error e)
  | some (.ok a), f => f a

/-! ## Object store files (`src/storage/transport.rs`) -/

/-- The `objects/` directory: contents of the file named by each hash. -/
abbrev ObjStore := Hash → Option (List Nat)

/-- Filesystem calls issued against the objects directory (the API the
transport layer uses; `renameP` exists in the API but, as the proofs
show, is never issued by `write_object`). -/
inductive FsOp where
  | statP (h : Hash)
  | writeP (h : Hash) (bytes : List Nat)
  | renameP (src : Hash) (dst : Hash)
deriving DecidableEq, Repr

/-- `write_object`: resulting store state.  If the target path exists the
write is skipped, otherwise `fs::write` stores the bytes at the final
path. -/
def writeObjectSt (store : ObjStore) (h : Hash) (obj : List Nat) : ObjStore :=
  if (store h).isSome then store
  else fun h' => if h' = h then some obj else store h'

/-- `write_object`: the exact sequence of filesystem calls it issues. -/
def writeObjectOps (store : ObjStore) (h : Hash) (obj : List Nat) : List FsOp :=
  if (store h).isSome then [.statP h] else [.statP h, .writeP h obj]

/-- `read_object`: missing file (`ErrorKind::NotFound`) becomes
`ObjectNotFound`. -/
def readObjectT (store : ObjStore) (h : Hash) : Except Err (List Nat) :=
  match store h with
  | some bs => .ok bs
  | none => .error .objectNotFound

section Transport

variable (digest : List Nat → Hash)

/-- `read_blob`: deserialize and insist the stamped hash matches. -/
def readBlobT (store : ObjStore) (h : Hash) : Except Err Blob :=
  match readObjectT store h with
  | .error e => .error e
  | .ok bs =>
    match deserializeBlob digest bs with
    | some b => if b.hash = h then .ok b else .error .objectCorrupted
    | none => .error .objectCorrupted

/-- `read_tree`: deserialize and insist the stamped hash matches. -/
def readTreeT (store : ObjStore) (h : Hash) : Except Err Tree :=
  match readObjectT store h with
  | .error e => .error e
  | .ok bs =>
    match deserializeTree digest bs with
    | some t => if t.hash = h then .ok t else .error .objectCorrupted
    | none => .error .objectCorrupted

/-- `read_commit`: deserialize and insist the stamped hash matches. -/
def readCommitT (store : ObjStore) (h : Hash) : Except Err Commit :=
  match readObjectT store h with
  | .error e => .error e
  | .ok bs =>
    match deserializeCommit digest bs with
    | some c => if c.hash = h then .ok c else .error .objectCorrupted
    | none => .error .objectCorrupted

end Transport

/-! ## Repository model (`src/repo/repository.rs`)

The claims at this level concern reference/branch bookkeeping, status
computation and control flow, not the byte codec, so the object store is
abstracted as partial maps from hashes to already-validated objects
(`transport::read_commit` / `read_tree` / `read_blob` results; a miss is
the `ObjectNotFound` error of a failed read). -/

/-- A path, as the list of its components (component = name bytes). -/
abbrev Path := List (List Nat)

/-- The worktree: an association from paths to file contents (the walker
already excludes the storage directory). -/
abbrev Wt := List (Path × List Nat)

/-- `enum Reference`. -/
inductive Reference where
  | hash (h : Hash)
  | branch (b : String)
deriving DecidableEq, Repr

/-- `enum FileStatus`. -/
inductive FileStatus where
  | untracked
  | unmodified
  | modified
  | added
  | deleted
  | missing
deriving DecidableEq, Repr

/-- `enum MergeStrategy`. -/
inductive MergeStrategy where
  | fastForward
  | threeWay
deriving DecidableEq, Repr

/-- The in-memory `Repository` state the claims touch (worktree and
storage paths are implicit in the `Wt`/store parameters). -/
structure Repo where
  head : Reference
  branches : List (String × Hash)
  tracklist : List Path
deriving DecidableEq, Repr

instance : DecidableEq (Repo × Wt) := inferInstance

instance : DecidableEq (MergeStrategy × Repo × Wt) := inferInstance

/-- `HashMap::get` on the branch map. -/
def lookupB : List (String × Hash) → String → Option Hash
  | [], _ => none
  | (k, v) :: rest, b => if k = b then some v else lookupB rest b

/-- `HashMap::insert` on the branch map (overwrite). -/
def insertB : List (String × Hash) → String → Hash → List (String × Hash)
  | [], b, h => [(b, h)]
  | (k, v) :: rest, b, h =>
    if k = b then (k, h) :: rest else (k, v) :: insertB rest b h

/-- `set_branch`: persist and cache a branch tip. -/
def setBranchM (r : Repo) (b : String) (h : Hash) : Repo :=
  { r with branches := insertB r.branches b h }

/-- `head_hash` = `resolve_reference(&self.head)`. -/
def headHash (r : Repo) : Except Err Hash :=
  match r.head with
  | .hash h => .ok h
  | .branch b =>
    match lookupB r.branches b with
    | some h => .ok h
    | none => .error .referenceNotFound

/-- `resolve_reference`. -/
def resolveRef (r : Repo) : Reference → Except Err Hash
  | .hash h => .ok h
  | .branch b =>
    match lookupB r.branches b with
    | some h => .ok h
    | none => .error .referenceNotFound

/-- Association-map helpers used for `HashMap<PathBuf, _>`. -/
def lookupA {β : Type} : List (Path × β) → Path → Option β
  | [], _ => none
  | (k, v) :: rest, p => if k = p then some v else lookupA rest p

/-- `HashMap::insert` (overwrite) on path-keyed maps. -/
def insertA {β : Type} : List (Path × β) → Path → β → List (Path × β)
  | [], p, v => [(p, v)]
  | (k, w) :: rest, p, v =>
    if k = p then (k, v) :: rest else (k, w) :: insertA rest p v

/-- `HashMap::remove` on path-keyed maps: the removed value and the rest. -/
def removeA {β : Type} : List (Path × β) → Path → Option β × List (Path × β)
  | [], _ => (none, [])
  | (k, v) :: rest, p =>
    if k = p then (some v, rest)
    else
      let r := removeA rest p
      (r.1, (k, v) :: r.2)

section RepoModel

variable (digest : List Nat → Hash)
variable (cstore : Hash → Option Commit)
variable (tstore : Hash → Option Tree)
variable (bstore : Hash → Option Blob)

/-- The per-level walk inside `FileIter`: visit the entries of one tree
in order, yield blobs, and hand each subtree (read from the store; a
miss is `ObjectMissing`) to the continuation `sub`, which carries the
descent into the next stack slot. -/
def entList (sub : Tree → Path → PE (List (Path × Hash))) :
    Path → List TreeEntry → PE (List (Path × Hash))
  | _, [] => peOk []
  | pre, e :: es =>
    match e.kind with
    | .blob =>
      peBind (entList sub pre es) fun l => peOk ((pre ++ [e.name], e.hash) :: l)
    | .tree =>
      match tstore e.hash with
      | none => peErr .objectMissing
      | some t =>
        peBind (sub t (pre ++ [e.name])) fun l1 =>
          peBind (entList sub pre es) fun l2 => peOk (l1 ++ l2)

/-- Depth-indexed tree walk: `fuel` counts the stack slots left under
`MAX_TREE_DEPTH`; exhausting them is the `assert!` panic of `FileIter`. -/
def entTree : Nat → Tree → Path → PE (List (Path × Hash))
  | 0, _, _ => none
  | fuel + 1, t, pre => entList tstore (entTree fuel) pre t.entries

/-- `Tree::files` collected into a list (`MAX_TREE_DEPTH = 1024`). -/
def treeFiles (t : Tree) : PE (List (Path × Hash)) :=
  entTree tstore 1024 t []

/-- `hash_file`: digest of the blob serialization of a file's bytes. -/
def hashFileM (content : List Nat) : Hash := digest (blobTag ++ content)

/-- The worktree loop of `status`: consume `head_files`, classify each
worktree file; returns the statuses in walk order and the unconsumed
tree files. -/
def statusWalk (tracklist : List Path) :
    List (Path × Hash) → Wt → List (Path × FileStatus) × List (Path × Hash)
  | hf, [] => ([], hf)
  | hf, (p, content) :: rest =>
    let r := removeA hf p
    let tracked := decide (p ∈ tracklist)
    let st :=
      match r.1, tracked with
      | none, true => FileStatus.added
      | none, false => FileStatus.untracked
      | some h, true =>
        if hashFileM digest content = h then FileStatus.unmodified
        else FileStatus.modified
      | some _, false => FileStatus.deleted
    let rec' := statusWalk tracklist r.2 rest
    ((p, st) :: rec'.1, rec'.2)

/-- `Repository::status` against a tree. -/
def statusOf (wt : Wt) (tracklist : List Path) (t : Tree) :
    PE (List (Path × FileStatus)) :=
  peBind (treeFiles tstore t) fun files =>
    let hf := files.foldl (fun m f => insertA m f.1 f.2) []
    let w := statusWalk digest tracklist hf wt
    peOk (w.1 ++ w.2.map fun f =>
      (f.1, if f.1 ∈ tracklist then FileStatus.missing else FileStatus.deleted))

/-- `check_safe_switch`: note the `unwrap` on `head_hash()` — an
unresolvable HEAD is a panic (`none`), not an error return. -/
def checkSafeSwitch (r : Repo) (wt : Wt) : PE Unit :=
  match headHash r with
  | .error _ => none
  | .ok h =>
    match cstore h with
    | none => peErr .objectNotFound
    | some c =>
      match tstore c.tree with
      | none => peErr .objectNotFound
      | some t =>
        peBind (statusOf digest tstore wt r.tracklist t) fun st =>
          if st.all fun e =>
              e.2 = FileStatus.unmodified ∨ e.2 = FileStatus.missing then
            peOk ()
          else peErr .checkoutFailed

/-- `is_clean` (used by `merge`): only `Unmodified`/`Untracked` tolerated. -/
def isCleanM (r : Repo) (wt : Wt) (t : Tree) : PE Unit :=
  peBind (statusOf digest tstore wt r.tracklist t) fun st =>
    if st.all fun e =>
        e.2 = FileStatus.unmodified ∨ e.2 = FileStatus.untracked then
      peOk ()
    else peErr .dirtyWorktree

/-- `fs::remove_file` on the worktree: error when the file is absent. -/
def removeWt (wt : Wt) (p : Path) : PE Wt :=
  if (lookupA wt p).isSome then peOk (wt.filter fun f => f.1 ≠ p)
  else peErr .ioError

/-- `fs::write` on the worktree (creating parents as needed). -/
def writeWt (wt : Wt) (p : Path) (content : List Nat) : Wt :=
  insertA wt p content

/-- `copy_objects_to_files`: look the path up in the flattened target
map; if present, read its blob and write the contents (no-op when the
path is not in the map). -/
def copyObjFiles (files : List (Path × Hash)) (p : Path) (wt : Wt) : PE Wt :=
  match lookupA files p with
  | none => peOk wt
  | some h =>
    match bstore h with
    | none => peErr .objectNotFound
    | some b => peOk (writeWt wt p b.content)

/-- The per-status action loop of `checkout`. -/
def applyStatus (files : List (Path × Hash)) (force : Bool) :
    Wt → List (Path × FileStatus) → PE Wt
  | wt, [] => peOk wt
  | wt, (p, st) :: rest =>
    match st with
    | .added => peBind (removeWt wt p) fun wt' => applyStatus files force wt' rest
    | .deleted | .missing =>
      peBind (copyObjFiles bstore files p wt) fun wt' =>
        applyStatus files force wt' rest
    | .modified =>
      peBind (removeWt wt p) fun wt' =>
        peBind (copyObjFiles bstore files p wt') fun wt'' =>
          applyStatus files force wt'' rest
    | .unmodified => applyStatus files force wt rest
    | .untracked =>
      if force then
        peBind (removeWt wt p) fun wt' => applyStatus files force wt' rest
      else peErr .checkoutFailed

/-- `Repository::checkout`. -/
def checkoutM (r : Repo) (wt : Wt) (newHead : Reference) (force : Bool) :
    PE (Repo × Wt) :=
  match resolveRef r newHead with
  | .error e => peErr e
  | .ok h =>
    peBind (if force then peOk () else checkSafeSwitch digest cstore tstore r wt)
      fun _ =>
    match cstore h with
    | none => peErr .objectNotFound
    | some c =>
      match tstore c.tree with
      | none => peErr .objectNotFound
      | some t =>
        peBind (statusOf digest tstore wt r.tracklist t) fun st =>
        peBind (treeFiles tstore t) fun tfiles =>
          let tf := tfiles.foldl (fun m f => insertA m f.1 f.2) []
          peBind (applyStatus bstore tf force wt st) fun wt' =>
            peOk ({ r with head := newHead, tracklist := tf.map Prod.fst }, wt')

/-! ### Common ancestor (`src/repo/object.rs`) -/

/-- `CommitIter::next`: the yielded item and the successor state.  The
parent is read eagerly; a failed parent read is yielded as that error. -/
def iterNext : Option Commit → Option (Except Err Commit) × Option Commit
  | none => (none, none)
  | some c =>
    match c.parent with
    | none => (some (.ok c), none)
    | some p =>
      match cstore p with
      | some pc => (some (.ok c), some pc)
      | none => (some (.error .objectNotFound), none)

/-- The `loop` of `into_common_ancestor`, fuel-indexed: `none` means the
loop has not produced a result within `fuel` iterations (for every fuel,
on some inputs — non-termination). -/
def caLoop : Nat → Option Commit → Option Commit → List Hash → List Hash →
    Option (Except Err Commit)
  | 0, _, _, _, _ => none
  | fuel + 1, sa, sb, ma, mb =>
    let stepA := iterNext cstore sa
    let exitA : Option (Except Err Commit) :=
      match stepA.1 with
      | some (.error e) => some (.error e)
      | some (.ok c) => if c.hash ∈ mb then some (.ok c) else none
      | none => none
    match exitA with
    | some r => some r
    | none =>
      let ma' := match stepA.1 with
        | some (.ok c) => c.hash :: ma
        | _ => ma
      let stepB := iterNext cstore sb
      match stepB.1 with
      | some (.error e) => some (.error e)
      | some (.ok c) =>
        if c.hash ∈ ma' then some (.ok c)
        else caLoop fuel stepA.2 stepB.2 ma' (c.hash :: mb)
      | none => caLoop fuel stepA.2 stepB.2 ma' mb

/-- `into_common_ancestor` entered with the two commits. -/
def commonAncestor (fuel : Nat) (a b : Commit) : Option (Except Err Commit) :=
  caLoop cstore fuel (some a) (some b) [] []

/-! ### Merge, pull, push (`src/repo/repository.rs`) -/

/-- `Repository::merge`.  The three-way branch (lines 507-561, reached
only when the common ancestor differs from both tips) depends on the
external textual merge tool, declared out of scope by the specification;
it is abstracted as the continuation `threeWayK`. -/
def mergeM
    (threeWayK : Repo → Wt → Commit → Commit → Commit → PE (MergeStrategy × Repo × Wt))
    (r : Repo) (wt : Wt) (theirHash : Hash) (fuel : Nat) :
    PE (MergeStrategy × Repo × Wt) :=
  match headHash r with
  | .error e => peErr e
  | .ok oh =>
    match cstore oh with
    | none => peErr .objectNotFound
    | some ours =>
      match cstore theirHash with
      | none => peErr .objectNotFound
      | some theirs =>
        match commonAncestor cstore fuel ours theirs with
        | none => none
        | some (.error e) => peErr e
        | some (.ok base) =>
          if base.hash = theirs.hash then peErr .nothingToMerge
          else
            match tstore ours.tree with
            | none => peErr .objectNotFound
            | some otree =>
              peBind (isCleanM digest tstore r wt otree) fun _ =>
                if base.hash = ours.hash then
                  let oldHead := r.head
                  peBind (checkoutM digest cstore tstore bstore r wt (.hash theirs.hash) false) fun rwt =>
                    match oldHead with
                    | .branch b =>
                      let r2 := setBranchM rwt.1 b theirs.hash
                      peOk (.fastForward, { r2 with head := oldHead }, rwt.2)
                    | .hash _ => peOk (.fastForward, rwt.1, rwt.2)
                else threeWayK r wt ours theirs base

/-- `Repository::pull` begins with `self.check_safe_switch()?`; the
remainder (remote opening, object copying, branch reconciliation,
re-checkout) is the continuation `rest`. -/
def pullM (r : Repo) (wt : Wt) (rest : PE Unit) : PE Unit :=
  peBind (checkSafeSwitch digest cstore tstore r wt) fun _ => rest

/-- `Repository::push` begins with `self.check_safe_switch()?`; the
remainder is the continuation `rest`. -/
def pushM (r : Repo) (wt : Wt) (rest : PE Unit) : PE Unit :=
  peBind (checkSafeSwitch digest cstore tstore r wt) fun _ => rest

end RepoModel


/-! ## Derived forms and concrete fixtures used by the verification -/

/-- The `<type> <filename>` head of a rendered entry (before the NUL). -/
def headPart (e : TreeEntry) : List Nat := kindTag e.kind ++ [32] ++ e.name

/-- The NUL-separated chunk shape of a rendered entry sequence, starting
from the chunk that carries the hash of the previous entry: each chunk is
`<prev hash><type> <filename>`, and the last is `<prev hash>` glued to
the first chunk `r0` of whatever follows the entries (`rs` the remaining
chunks of that continuation). -/
def bChunksR (h : Hash) : List TreeEntry → List Nat → List (List Nat) → List (List Nat)
  | [], r0, rs => (hashChars h ++ r0) :: rs
  | e :: es, r0, rs => (hashChars h ++ headPart e) :: bChunksR e.hash es r0 rs

/-- A constant digest function (any `digest` works for the parametric
theorems; a concrete one is needed for concrete evaluations). -/
def dg0 : List Nat → Hash := fun _ => mkHash 0

/-- Root commit fixture (no parent). -/
def rootC : Commit := ⟨mkHash 1, mkHash 11, none, [], 0, []⟩

/-- Child commit fixture (parent = `rootC`). -/
def childC : Commit := ⟨mkHash 2, mkHash 12, some (mkHash 1), [], 1, []⟩

/-- A second, unrelated root commit fixture. -/
def otherRootC : Commit := ⟨mkHash 3, mkHash 12, none, [], 0, []⟩

/-- Commit store holding the chain `childC → rootC`. -/
def csFix : Hash → Option Commit := fun h =>
  if h = mkHash 1 then some rootC
  else if h = mkHash 2 then some childC
  else none

/-- Commit store holding the two unrelated roots. -/
def csDisj : Hash → Option Commit := fun h =>
  if h = mkHash 1 then some rootC
  else if h = mkHash 3 then some otherRootC
  else none

/-- Tree store with the two empty trees of the commit fixtures. -/
def tsFix : Hash → Option Tree := fun h =>
  if h = mkHash 11 then some ⟨mkHash 11, []⟩
  else if h = mkHash 12 then some ⟨mkHash 12, []⟩
  else none

/-- Empty blob store. -/
def bsFix : Hash → Option Blob := fun _ => none

/-- Repository on branch `main` at `rootC`. -/
def repFix : Repo := ⟨.branch "main", [("main", mkHash 1)], []⟩

/-- Freshly initialised repository: HEAD names `main`, which has never
been committed to. -/
def repUnborn : Repo := ⟨.branch "main", [], []⟩

/-- Arbitrary three-way continuation for concrete merges. -/
def twKFix : Repo → Wt → Commit → Commit → Commit → PE (MergeStrategy × Repo × Wt) :=
  fun _ _ _ _ _ => none

/-- Blob fixture with content `"hi"`. -/
def blobFix : Blob := ⟨hash0, [104, 105]⟩

/-- Commit fixture (spec seed S3 flavour). -/
def commitFix : Commit :=
  ⟨hash0, mkHash 3, some (mkHash 4), [112, 97, 117, 108], 1637385703000,
    [119, 114, 105, 116, 101]⟩

/-- Entry named `"foo"`. -/
def entryFoo : TreeEntry := ⟨.blob, mkHash 1, [102, 111, 111]⟩

/-- Entry named `"bar"`. -/
def entryBar : TreeEntry := ⟨.blob, mkHash 2, [98, 97, 114]⟩

/-- Tree whose entries are already in canonical order. -/
def treeSortedFix : Tree := ⟨hash0, [entryBar, entryFoo]⟩

/-- The same entry set with the entries out of canonical order. -/
def treeUnsortedFix : Tree := ⟨hash0, [entryFoo, entryBar]⟩

/-- Blob entry named `"x"`. -/
def entryDupB : TreeEntry := ⟨.blob, hash0, [120]⟩

/-- Tree entry named `"x"` with the same hash. -/
def entryDupT : TreeEntry := ⟨.tree, hash0, [120]⟩

/-- Tree holding both same-key entries, blob first. -/
def treeDup1 : Tree := ⟨hash0, [entryDupB, entryDupT]⟩

/-- Tree holding both same-key entries, tree first. -/
def treeDup2 : Tree := ⟨hash0, [entryDupT, entryDupB]⟩

/-- Commit whose message ends with a newline (`"a\n"`). -/
def commitNl : Commit := ⟨hash0, mkHash 3, none, [112], 0, [97, 10]⟩

/-- Commit whose message has an interior newline (`"a\nb"`). -/
def commitNl2 : Commit := ⟨hash0, mkHash 3, none, [112], 0, [97, 10, 98]⟩

/-- Object-file store fixture: a valid blob object stored under its
stamped hash (`dg0` stamps everything with `mkHash 0`), the same bytes
also stored under the wrong name `mkHash 9`, and unparsable bytes under
`mkHash 8`. -/
def storeFix : ObjStore := fun h =>
  if h = hash0 then some (blobTag ++ [104, 105])
  else if h = mkHash 9 then some (blobTag ++ [104, 105])
  else if h = mkHash 8 then some [1, 2, 3]
  else none

/-! ## Basic lemmas -/

theorem stripTag_append (p r : List Nat) : stripTag p (p ++ r) = some r := by
  induction p with
  | nil => rfl
  | cons x xs ih => simp [stripTag, ih]

theorem stripTag_ne (p l : List Nat) (x y : Nat) (hx : x ≠ y) :
    stripTag (x :: p) (y :: l) = none := by
  simp [stripTag, hx]

theorem splitSep_ne_nil (s : Nat) (l : List Nat) : splitSep s l ≠ [] := by
  induction l with
  | nil => simp [splitSep]
  | cons x xs ih =>
    simp only [splitSep]
    split
    · simp
    · cases h : splitSep s xs with
      | nil => simp
      | cons c cs => simp [h]

theorem splitSep_sepFree {s : Nat} {l : List Nat} (h : s ∉ l) :
    splitSep s l = [l] := by
  induction l with
  | nil => rfl
  | cons x xs ih =>
    simp only [List.mem_cons, not_or] at h
    simp only [splitSep]
    rw [if_neg (fun hx => h.1 hx.symm), ih h.2]

theorem splitSep_append_sep {s : Nat} {l : List Nat} (r : List Nat) (h : s ∉ l) :
    splitSep s (l ++ s :: r) = l :: splitSep s r := by
  induction l with
  | nil => simp [splitSep]
  | cons x xs ih =>
    simp only [List.mem_cons, not_or] at h
    simp only [List.cons_append, splitSep]
    rw [if_neg (fun hx => h.1 hx.symm)]
    simp only [List.append_eq]
    rw [ih h.2]

theorem splitSep_append_free {s : Nat} {l r : List Nat} {c : List Nat}
    {cs : List (List Nat)} (h : s ∉ l) (hr : splitSep s r = c :: cs) :
    splitSep s (l ++ r) = (l ++ c) :: cs := by
  induction l with
  | nil => simpa using hr
  | cons x xs ih =>
    simp only [List.mem_cons, not_or] at h
    simp only [List.cons_append, splitSep]
    rw [if_neg (fun hx => h.1 hx.symm)]
    simp only [List.append_eq]
    rw [ih h.2]

theorem toHexDigits_length (n v : Nat) : (toHexDigits n v).length = n := by
  induction n generalizing v with
  | zero => rfl
  | succ n ih => simp [toHexDigits, ih]

theorem toHexDigits_lt (n v : Nat) : ∀ d ∈ toHexDigits n v, d < 16 := by
  induction n generalizing v with
  | zero => simp [toHexDigits]
  | succ n ih =>
    intro d hd
    simp only [toHexDigits, List.mem_append, List.mem_singleton] at hd
    rcases hd with hd | hd
    · exact ih _ d hd
    · subst hd; exact Nat.mod_lt _ (by omega)

theorem fromHex_append_one (l : List Nat) (d : Nat) :
    fromHex (l ++ [d]) = 16 * fromHex l + d := by
  simp [fromHex, List.foldl_append]

theorem fromHex_toHexDigits (n v : Nat) (h : v < 16 ^ n) :
    fromHex (toHexDigits n v) = v := by
  induction n generalizing v with
  | zero => interval_cases v; rfl
  | succ n ih =>
    have hdiv : v / 16 < 16 ^ n := by
      rw [Nat.div_lt_iff_lt_mul (by omega)]
      calc v < 16 ^ (n + 1) := h
        _ = 16 ^ n * 16 := by ring
    rw [toHexDigits, fromHex_append_one, ih _ hdiv]
    have := Nat.div_add_mod v 16
    omega

theorem hexVal_hexChar {d : Nat} (h : d < 16) : hexVal (hexChar d) = some d := by
  simp only [hexVal, hexChar]
  split_ifs <;> simp_all <;> omega

theorem hexVals_map_hexChar {ds : List Nat} (h : ∀ d ∈ ds, d < 16) :
    hexVals (ds.map hexChar) = some ds := by
  induction ds with
  | nil => rfl
  | cons d ds ih =>
    simp only [List.map_cons, hexVals]
    rw [hexVal_hexChar (h d (by simp)), ih fun x hx => h x (by simp [hx])]

theorem hashChars_length (h : Hash) : (hashChars h).length = 40 := by
  simp [hashChars, toHexDigits_length]

theorem parseHashBytes_hashChars (h : Hash) : parseHashBytes (hashChars h) = some h := by
  simp only [parseHashBytes, hashChars_length, if_pos]
  rw [hashChars, hexVals_map_hexChar (toHexDigits_lt 40 h.val)]
  simp only [Option.some.injEq]
  apply Fin.ext
  simp only
  rw [fromHex_toHexDigits 40 h.val h.isLt]
  exact Nat.mod_eq_of_lt h.isLt

theorem hexChar_ne_nul {d : Nat} : hexChar d ≠ 0 := by
  simp only [hexChar]; split <;> omega

theorem hexChar_ne_nl {d : Nat} : hexChar d ≠ 10 := by
  simp only [hexChar]; split <;> omega

theorem nul_not_mem_hashChars (h : Hash) : 0 ∉ hashChars h := by
  simp only [hashChars, List.mem_map, not_exists]
  rintro x ⟨-, hx⟩
  exact hexChar_ne_nul hx

theorem nl_not_mem_hashChars (h : Hash) : 10 ∉ hashChars h := by
  simp only [hashChars, List.mem_map, not_exists]
  rintro x ⟨-, hx⟩
  exact hexChar_ne_nl hx

theorem decDigitsAux_ne_nil (fuel n : Nat) : decDigitsAux fuel n ≠ [] := by
  cases fuel with
  | zero => simp [decDigitsAux]
  | succ fuel =>
    simp only [decDigitsAux]
    split <;> simp

theorem decDigitsAux_lt (fuel : Nat) :
    ∀ (n d : Nat), d ∈ decDigitsAux fuel n → d < 10 := by
  induction fuel with
  | zero =>
    intro n d hd
    simp only [decDigitsAux, List.mem_singleton] at hd
    subst hd
    exact Nat.mod_lt _ (by omega)
  | succ fuel ih =>
    intro n d hd
    simp only [decDigitsAux] at hd
    split at hd
    · simp only [List.mem_singleton] at hd
      omega
    · simp only [List.mem_append, List.mem_singleton] at hd
      rcases hd with hd | hd
      · exact ih _ d hd
      · subst hd; exact Nat.mod_lt _ (by omega)

theorem decDigits_ne_nil (n : Nat) : decDigits n ≠ [] :=
  decDigitsAux_ne_nil n n

theorem decDigits_lt (n : Nat) : ∀ d ∈ decDigits n, d < 10 :=
  fun d hd => decDigitsAux_lt n n d hd

theorem fromDec_append_one (l : List Nat) (d : Nat) :
    fromDec (l ++ [d]) = 10 * fromDec l + d := by
  simp [fromDec, List.foldl_append]

theorem fromDec_decDigitsAux (fuel : Nat) :
    ∀ n : Nat, n ≤ fuel → fromDec (decDigitsAux fuel n) = n := by
  induction fuel with
  | zero =>
    intro n hn
    have : n = 0 := by omega
    subst this
    rfl
  | succ fuel ih =>
    intro n hn
    simp only [decDigitsAux]
    split
    · simp [fromDec]
    · rw [fromDec_append_one, ih (n / 10) (by omega)]
      have := Nat.div_add_mod n 10
      omega

theorem fromDec_decDigits (n : Nat) : fromDec (decDigits n) = n :=
  fromDec_decDigitsAux n n le_rfl

theorem decVals_map_digits {ds : List Nat} (h : ∀ d ∈ ds, d < 10) :
    decVals (ds.map (· + 48)) = some ds := by
  induction ds with
  | nil => rfl
  | cons d ds ih =>
    have hd := h d (by simp)
    simp only [List.map_cons, decVals]
    rw [if_pos (by omega), ih fun x hx => h x (by simp [hx])]
    simp

theorem renderNat_ne_nil (n : Nat) : renderNat n ≠ [] := by
  simp only [renderNat]
  intro hc
  exact decDigits_ne_nil n (List.map_eq_nil_iff.mp hc)

theorem renderNat_digits (n : Nat) : ∀ c ∈ renderNat n, 48 ≤ c ∧ c ≤ 57 := by
  simp only [renderNat, List.mem_map]
  rintro c ⟨d, hd, rfl⟩
  have := decDigits_lt n d hd
  omega

theorem parseDecNat_renderNat (n : Nat) : parseDecNat (renderNat n) = some n := by
  have hne := renderNat_ne_nil n
  rw [parseDecNat.eq_def]
  split
  · exact absurd (by assumption) hne
  · rw [renderNat, decVals_map_digits (decDigits_lt n)]
    simp [fromDec_decDigits]

theorem renderInt_nonneg (t : Int) (h : 0 ≤ t) : renderInt t = renderNat t.toNat := by
  rw [renderInt, if_neg (by omega)]

theorem parseI64_renderInt (t : Int) (h1 : -(2 ^ 63) ≤ t) (h2 : t < 2 ^ 63) :
    parseI64 (renderInt t) = some t := by
  by_cases ht : t < 0
  · rw [renderInt, if_pos ht]
    have hred : parseI64 (45 :: renderNat (-t).toNat) =
        (match parseDecNat (renderNat (-t).toNat) with
         | some n => if n ≤ 2 ^ 63 then some (-(n : Int)) else none
         | none => none) := rfl
    rw [hred, parseDecNat_renderNat]
    have hle : (-t).toNat ≤ 2 ^ 63 := by omega
    simp only [if_pos hle, Option.some.injEq]
    omega
  · rw [renderInt, if_neg ht]
    have hd := renderNat_digits t.toNat
    have hlt : t.toNat < 2 ^ 63 := by omega
    rw [parseI64.eq_def]
    split
    · rename_i rest heq
      have := hd 43 (by rw [heq]; simp)
      omega
    · rename_i rest heq
      have := hd 45 (by rw [heq]; simp)
      omega
    · rw [parseDecNat_renderNat]
      simp only [hlt, if_true, Option.some.injEq]
      omega

theorem renderNat_ne_nul (n : Nat) : 0 ∉ renderNat n := by
  intro hc
  have := renderNat_digits n 0 hc
  omega

theorem renderInt_ne_nl (t : Int) : 10 ∉ renderInt t := by
  rw [renderInt]
  split
  · intro hc
    rcases List.mem_cons.mp hc with hc | hc
    · omega
    · have := renderNat_digits _ _ hc; omega
  · intro hc
    have := renderNat_digits _ _ hc; omega

theorem lexLeB_total (a b : List Nat) : lexLeB a b = true ∨ lexLeB b a = true := by
  induction a generalizing b with
  | nil => left; rfl
  | cons x xs ih =>
    cases b with
    | nil => right; rfl
    | cons y ys =>
      simp only [lexLeB]
      rcases Nat.lt_trichotomy x y with h | h | h
      · left; rw [if_pos h]
      · subst h
        simp only [lt_irrefl, if_false]
        exact ih ys
      · right; rw [if_pos h]

theorem lexLeB_antisymm {a b : List Nat} (h1 : lexLeB a b = true)
    (h2 : lexLeB b a = true) : a = b := by
  induction a generalizing b with
  | nil =>
    cases b with
    | nil => rfl
    | cons y ys => simp [lexLeB] at h2
  | cons x xs ih =>
    cases b with
    | nil => simp [lexLeB] at h1
    | cons y ys =>
      simp only [lexLeB] at h1 h2
      rcases Nat.lt_trichotomy x y with h | h | h
      · rw [if_neg (by omega), if_pos h] at h2; exact absurd h2 (by simp)
      · subst h
        simp only [lt_irrefl, if_false] at h1 h2
        rw [ih h1 h2]
      · rw [if_neg (by omega), if_pos h] at h1; exact absurd h1 (by simp)

theorem lexLeB_trans {a b c : List Nat} (h1 : lexLeB a b = true)
    (h2 : lexLeB b c = true) : lexLeB a c = true := by
  induction a generalizing b c with
  | nil => rfl
  | cons x xs ih =>
    cases b with
    | nil => simp [lexLeB] at h1
    | cons y ys =>
      cases c with
      | nil => simp [lexLeB] at h2
      | cons z zs =>
        simp only [lexLeB] at h1 h2 ⊢
        rcases Nat.lt_trichotomy x y with hxy | hxy | hxy
        · rcases Nat.lt_trichotomy y z with hyz | hyz | hyz
          · rw [if_pos (by omega)]
          · subst hyz; rw [if_pos hxy]
          · rw [if_neg (by omega), if_pos hyz] at h2; exact absurd h2 (by simp)
        · subst hxy
          rcases Nat.lt_trichotomy x z with hxz | hxz | hxz
          · rw [if_pos hxz]
          · subst hxz
            simp only [lt_irrefl, if_false] at h1 h2 ⊢
            exact ih h1 h2
          · rw [if_neg (by omega), if_pos hxz] at h2; exact absurd h2 (by simp)
        · rw [if_neg (by omega), if_pos hxy] at h1; exact absurd h1 (by simp)

instance : IsTotal (List Nat) rKey :=
  ⟨fun a b => lexLeB_total (a.drop 5) (b.drop 5)⟩

instance : IsTrans (List Nat) rKey :=
  ⟨fun _ _ _ h1 h2 => lexLeB_trans h1 h2⟩

/-! ## Tree codec machinery -/

theorem kindTag_length (k : EntryKind) : (kindTag k).length = 4 := by
  cases k <;> rfl

theorem headPart_five_le (e : TreeEntry) : 5 ≤ (headPart e).length := by
  obtain ⟨k, h, n⟩ := e
  cases k <;> simp [headPart, kindTag]

theorem headPart_take (e : TreeEntry) : (headPart e).take 4 = kindTag e.kind := by
  obtain ⟨k, h, n⟩ := e
  cases k <;> simp [headPart, kindTag]

theorem headPart_drop (e : TreeEntry) : (headPart e).drop 5 = e.name := by
  obtain ⟨k, h, n⟩ := e
  cases k <;> simp [headPart, kindTag]

theorem nul_not_mem_headPart (e : TreeEntry) (h : 0 ∉ e.name) :
    0 ∉ headPart e := by
  obtain ⟨k, eh, n⟩ := e
  intro hc
  apply h
  cases k <;> simpa [headPart, kindTag] using hc

theorem renderEntry_decomp (e : TreeEntry) :
    renderEntry e = headPart e ++ 0 :: hashChars e.hash := by
  simp [renderEntry, headPart, List.append_assoc]

theorem renderEntry_length (e : TreeEntry) :
    (renderEntry e).length = (headPart e).length + 41 := by
  rw [renderEntry_decomp]
  simp [hashChars_length]

theorem splitSep_renderEntries (es : List TreeEntry) :
    ∀ (e : TreeEntry) (rest r0 : List Nat) (rs : List (List Nat)),
      (∀ x ∈ e :: es, (0 : Nat) ∉ x.name) → splitSep 0 rest = r0 :: rs →
      splitSep 0 (((e :: es).map renderEntry).flatten ++ rest) =
        headPart e :: bChunksR e.hash es r0 rs := by
  induction es with
  | nil =>
    intro e rest r0 rs hwf hr
    have hfree : (0 : Nat) ∉ headPart e :=
      nul_not_mem_headPart e (hwf e (by simp))
    have hshape : ((([e] : List TreeEntry).map renderEntry).flatten ++ rest) =
        headPart e ++ 0 :: (hashChars e.hash ++ rest) := by
      simp [renderEntry_decomp, List.append_assoc]
    rw [hshape, splitSep_append_sep _ hfree,
      splitSep_append_free (nul_not_mem_hashChars e.hash) hr]
    rfl
  | cons e2 es ih =>
    intro e rest r0 rs hwf hr
    have hfree : (0 : Nat) ∉ headPart e :=
      nul_not_mem_headPart e (hwf e (by simp))
    have hshape : (((e :: e2 :: es).map renderEntry).flatten ++ rest) =
        headPart e ++ 0 :: (hashChars e.hash ++
          (((e2 :: es).map renderEntry).flatten ++ rest)) := by
      simp [renderEntry_decomp, List.append_assoc]
    have htail := ih e2 rest r0 rs (fun x hx => hwf x (by simp at hx ⊢; tauto)) hr
    rw [hshape, splitSep_append_sep _ hfree,
      splitSep_append_free (nul_not_mem_hashChars e.hash) htail]
    rfl

theorem parseChunks_nil (a : List Nat) (acc : List TreeEntry) :
    parseChunks a [] acc = if a = [] then some acc else none := rfl

theorem parseChunks_cons (a b : List Nat) (bs : List (List Nat))
    (acc : List TreeEntry) :
    parseChunks a (b :: bs) acc =
      if 5 ≤ a.length then
        if 40 ≤ b.length then
          match parseHashBytes (b.take 40) with
          | none => none
          | some h =>
            if a.take 4 = kindTag .blob then
              parseChunks (b.drop 40) bs (acc ++ [⟨.blob, h, a.drop 5⟩])
            else if a.take 4 = kindTag .tree then
              parseChunks (b.drop 40) bs (acc ++ [⟨.tree, h, a.drop 5⟩])
            else none
        else none
      else none := rfl

theorem parseChunks_bChunksR (es : List TreeEntry) :
    ∀ (e : TreeEntry) (acc : List TreeEntry) (r0 : List Nat)
      (rs : List (List Nat)),
      parseChunks (headPart e) (bChunksR e.hash es r0 rs) acc =
        parseChunks r0 rs (acc ++ e :: es) := by
  induction es with
  | nil =>
    intro e acc r0 rs
    have hb : bChunksR e.hash [] r0 rs = (hashChars e.hash ++ r0) :: rs := rfl
    rw [hb, parseChunks_cons, if_pos (headPart_five_le e),
      if_pos (by rw [List.length_append, hashChars_length]; omega)]
    have htake : (hashChars e.hash ++ r0).take 40 = hashChars e.hash := by
      rw [← hashChars_length e.hash, List.take_left]
    have hdrop : (hashChars e.hash ++ r0).drop 40 = r0 := by
      rw [← hashChars_length e.hash, List.drop_left]
    rw [htake, hdrop, parseHashBytes_hashChars]
    simp only [headPart_take, headPart_drop]
    rcases hk : e.kind with _ | _
    · rw [if_pos rfl]
      have he : (⟨EntryKind.blob, e.hash, e.name⟩ : TreeEntry) = e := by
        rw [← hk]
      rw [he]
    · rw [if_neg (by decide), if_pos rfl]
      have he : (⟨EntryKind.tree, e.hash, e.name⟩ : TreeEntry) = e := by
        rw [← hk]
      rw [he]
  | cons e2 es ih =>
    intro e acc r0 rs
    have hb : bChunksR e.hash (e2 :: es) r0 rs =
        (hashChars e.hash ++ headPart e2) :: bChunksR e2.hash es r0 rs := rfl
    rw [hb, parseChunks_cons, if_pos (headPart_five_le e),
      if_pos (by rw [List.length_append, hashChars_length]; omega)]
    have htake : (hashChars e.hash ++ headPart e2).take 40 = hashChars e.hash := by
      rw [← hashChars_length e.hash, List.take_left]
    have hdrop : (hashChars e.hash ++ headPart e2).drop 40 = headPart e2 := by
      rw [← hashChars_length e.hash, List.drop_left]
    rw [htake, hdrop, parseHashBytes_hashChars]
    simp only [headPart_take, headPart_drop]
    rcases hk : e.kind with _ | _
    · rw [if_pos rfl]
      have he : (⟨EntryKind.blob, e.hash, e.name⟩ : TreeEntry) = e := by
        rw [← hk]
      rw [he, ih e2 (acc ++ [e]) r0 rs]
      simp
    · rw [if_neg (by decide), if_pos rfl]
      have he : (⟨EntryKind.tree, e.hash, e.name⟩ : TreeEntry) = e := by
        rw [← hk]
      rw [he, ih e2 (acc ++ [e]) r0 rs]
      simp

theorem parseTreeEntries_flatten (es : List TreeEntry)
    (hwf : ∀ x ∈ es, (0 : Nat) ∉ x.name) :
    parseTreeEntries ((es.map renderEntry).flatten) = some es := by
  cases es with
  | nil => rfl
  | cons e es' =>
    have hs := splitSep_renderEntries es' e [] [] [] hwf rfl
    rw [List.append_nil] at hs
    rw [parseTreeEntries, hs]
    show parseChunks (headPart e) (bChunksR e.hash es' [] []) [] = some (e :: es')
    rw [parseChunks_bChunksR, parseChunks_nil]
    simp

theorem parseTreeEntries_flatten_garbage (es : List TreeEntry) (g : List Nat)
    (hwf : ∀ x ∈ es, (0 : Nat) ∉ x.name) (hg : g ≠ []) (hgn : (0 : Nat) ∉ g) :
    parseTreeEntries ((es.map renderEntry).flatten ++ g) = none := by
  cases es with
  | nil =>
    simp only [List.map_nil, List.flatten_nil, List.nil_append]
    rw [parseTreeEntries, splitSep_sepFree hgn]
    show parseChunks g [] [] = none
    rw [parseChunks_nil, if_neg hg]
  | cons e es' =>
    have hs := splitSep_renderEntries es' e g g [] hwf (splitSep_sepFree hgn)
    rw [parseTreeEntries, hs]
    show parseChunks (headPart e) (bChunksR e.hash es' g []) [] = none
    rw [parseChunks_bChunksR, parseChunks_nil, if_neg hg]

theorem parseChunks_shortHash (a ht : List Nat) (acc : List TreeEntry)
    (h5 : 5 ≤ a.length) (hlt : ht.length < 40) :
    parseChunks a [ht] acc = none := by
  rw [parseChunks_cons, if_pos h5, if_neg (by omega)]

theorem parseTreeEntries_truncated (es : List TreeEntry) (e' : TreeEntry)
    (k : Nat) (hwf : ∀ x ∈ es, (0 : Nat) ∉ x.name) (he' : (0 : Nat) ∉ e'.name)
    (hk1 : 1 ≤ k) (hk2 : k < (renderEntry e').length) :
    parseTreeEntries ((es.map renderEntry).flatten ++ (renderEntry e').take k) =
      none := by
  rw [renderEntry_length] at hk2
  rw [renderEntry_decomp e']
  by_cases hA : k ≤ (headPart e').length
  · -- the truncation stops inside `<type> <filename>`: NUL-free garbage
    rw [List.take_append_of_le_length hA]
    apply parseTreeEntries_flatten_garbage es _ hwf
    · have hlen : ((headPart e').take k).length = k := by
        rw [List.length_take]
        omega
      intro hnil
      rw [hnil] at hlen
      simp at hlen
      omega
    · intro hc
      exact nul_not_mem_headPart e' he' (List.take_subset k _ hc)
  · -- the truncation covers the NUL and part of the hash characters
    push_neg at hA
    have hk' : k = (headPart e').length + (k - (headPart e').length) := by omega
    have hi : k - (headPart e').length =
        (k - (headPart e').length - 1) + 1 := by omega
    have hsplit : (headPart e' ++ 0 :: hashChars e'.hash).take k =
        headPart e' ++
          0 :: (hashChars e'.hash).take (k - (headPart e').length - 1) := by
      conv_lhs => rw [hk']
      rw [List.take_append, hi, List.take_succ_cons]
      simp
    rw [hsplit]
    set ht := (hashChars e'.hash).take (k - (headPart e').length - 1) with hht
    have hhtfree : (0 : Nat) ∉ ht :=
      fun hc => nul_not_mem_hashChars e'.hash (List.take_subset _ _ hc)
    have hhtlen : ht.length < 40 := by
      rw [hht, List.length_take, hashChars_length]
      omega
    have hrest : splitSep 0 (headPart e' ++ 0 :: ht) = headPart e' :: [ht] := by
      rw [splitSep_append_sep _ (nul_not_mem_headPart e' he'),
        splitSep_sepFree hhtfree]
    cases es with
    | nil =>
      simp only [List.map_nil, List.flatten_nil, List.nil_append]
      rw [parseTreeEntries, hrest]
      show parseChunks (headPart e') [ht] [] = none
      exact parseChunks_shortHash _ _ _ (headPart_five_le e') hhtlen
    | cons e es' =>
      have hs := splitSep_renderEntries es' e (headPart e' ++ 0 :: ht)
        (headPart e') [ht] hwf hrest
      rw [parseTreeEntries, hs]
      show parseChunks (headPart e) (bChunksR e.hash es' (headPart e') [ht]) [] =
        none
      rw [parseChunks_bChunksR]
      exact parseChunks_shortHash _ _ _ (headPart_five_le e') hhtlen

/-! ## Commit codec machinery -/

theorem splitSep_sep_cons (s : Nat) (l : List Nat) :
    splitSep s (s :: l) = [] :: splitSep s l := by
  simp [splitSep]

theorem stripTag_parent_of_author (l : List Nat) :
    stripTag [112, 97, 114, 101, 110, 116, 32]
      ([97, 117, 116, 104, 111, 114, 32] ++ l) = none := rfl

theorem nl_not_mem_treeLine (h : Hash) :
    (10 : Nat) ∉ [116, 114, 101, 101, 32] ++ hashChars h := by
  intro hc
  rcases List.mem_append.mp hc with hc | hc
  · simp at hc
  · exact nl_not_mem_hashChars h hc

theorem nl_not_mem_parentLine (h : Hash) :
    (10 : Nat) ∉ [112, 97, 114, 101, 110, 116, 32] ++ hashChars h := by
  intro hc
  rcases List.mem_append.mp hc with hc | hc
  · simp at hc
  · exact nl_not_mem_hashChars h hc

theorem nl_not_mem_authorLine {a : List Nat} (ha : (10 : Nat) ∉ a) :
    (10 : Nat) ∉ [97, 117, 116, 104, 111, 114, 32] ++ a := by
  intro hc
  rcases List.mem_append.mp hc with hc | hc
  · simp at hc
  · exact ha hc

theorem nl_not_mem_timeLine (t : Int) :
    (10 : Nat) ∉ [116, 105, 109, 101, 32] ++ renderInt t := by
  intro hc
  rcases List.mem_append.mp hc with hc | hc
  · simp at hc
  · exact renderInt_ne_nl t hc

theorem splitSep_commitBody (c : Commit) (rest r0 : List Nat)
    (rs : List (List Nat)) (hA : (10 : Nat) ∉ c.author)
    (hM : (10 : Nat) ∉ c.msg) (hr : splitSep 10 rest = r0 :: rs) :
    splitSep 10 (commitBody c ++ rest) =
      ([116, 114, 101, 101, 32] ++ hashChars c.tree) ::
        ((match c.parent with
          | some p => [[112, 97, 114, 101, 110, 116, 32] ++ hashChars p]
          | none => []) ++
          ([97, 117, 116, 104, 111, 114, 32] ++ c.author) ::
          ([116, 105, 109, 101, 32] ++ renderInt c.time) ::
          [] :: c.msg :: r0 :: rs) := by
  have h5 : splitSep 10 (c.msg ++ 10 :: rest) = c.msg :: r0 :: rs := by
    rw [splitSep_append_sep _ hM, hr]
  have h4 : splitSep 10 (10 :: (c.msg ++ 10 :: rest)) =
      [] :: c.msg :: r0 :: rs := by
    rw [splitSep_sep_cons, h5]
  have h3 : splitSep 10 (([116, 105, 109, 101, 32] ++ renderInt c.time) ++
      10 :: (10 :: (c.msg ++ 10 :: rest))) =
      ([116, 105, 109, 101, 32] ++ renderInt c.time) :: [] :: c.msg :: r0 :: rs := by
    rw [splitSep_append_sep _ (nl_not_mem_timeLine c.time), h4]
  have h2 : splitSep 10 (([97, 117, 116, 104, 111, 114, 32] ++ c.author) ++
      10 :: (([116, 105, 109, 101, 32] ++ renderInt c.time) ++
        10 :: (10 :: (c.msg ++ 10 :: rest)))) =
      ([97, 117, 116, 104, 111, 114, 32] ++ c.author) ::
        ([116, 105, 109, 101, 32] ++ renderInt c.time) ::
        [] :: c.msg :: r0 :: rs := by
    rw [splitSep_append_sep _ (nl_not_mem_authorLine hA), h3]
  rcases hp : c.parent with _ | p
  · have hshape : commitBody c ++ rest =
        ([116, 114, 101, 101, 32] ++ hashChars c.tree) ++
          10 :: (([97, 117, 116, 104, 111, 114, 32] ++ c.author) ++
            10 :: (([116, 105, 109, 101, 32] ++ renderInt c.time) ++
              10 :: (10 :: (c.msg ++ 10 :: rest)))) := by
      simp [commitBody, hp, List.append_assoc]
    rw [hshape, splitSep_append_sep _ (nl_not_mem_treeLine c.tree), h2]
    simp
  · have hshape : commitBody c ++ rest =
        ([116, 114, 101, 101, 32] ++ hashChars c.tree) ++
          10 :: (([112, 97, 114, 101, 110, 116, 32] ++ hashChars p) ++
            10 :: (([97, 117, 116, 104, 111, 114, 32] ++ c.author) ++
              10 :: (([116, 105, 109, 101, 32] ++ renderInt c.time) ++
                10 :: (10 :: (c.msg ++ 10 :: rest))))) := by
      simp [commitBody, hp, List.append_assoc]
    rw [hshape, splitSep_append_sep _ (nl_not_mem_treeLine c.tree),
      splitSep_append_sep _ (nl_not_mem_parentLine p), h2]
    simp

theorem parseCommitData_body (c : Commit) (rest r0 : List Nat)
    (rs : List (List Nat)) (hA : (10 : Nat) ∉ c.author)
    (hM : (10 : Nat) ∉ c.msg) (h1 : -(2 ^ 63 : Int) ≤ c.time)
    (h2 : c.time < 2 ^ 63) (hr : splitSep 10 rest = r0 :: rs) :
    parseCommitData (commitBody c ++ rest) =
      if r0 = [] then some ⟨hash0, c.tree, c.parent, c.author, c.time, c.msg⟩
      else none := by
  have hchunks := splitSep_commitBody c rest r0 rs hA hM hr
  rcases hp : c.parent with _ | p
  · rw [hp] at hchunks
    simp only [parseCommitData, hchunks, hp, List.nil_append, stripTag_append,
      stripTag_parent_of_author, parseHashBytes_hashChars,
      parseI64_renderInt c.time h1 h2]
  · rw [hp] at hchunks
    simp only [parseCommitData, hchunks, hp, List.singleton_append,
      stripTag_append, parseHashBytes_hashChars,
      parseI64_renderInt c.time h1 h2]

/-! ## Claims -/

/-- C1 (counterexample).  The round-trip claim fails as stated: a Tree
whose in-memory entries are not in canonical order (here `foo` added
before `bar`) serializes with the entries re-sorted, so deserializing the
produced bytes yields a Tree whose `entries` differ from the serialized
(and stamped) original, and the two are not equal. -/
theorem c1_entry_order_counterexample :
    deserializeTree dg0 (serializeTree dg0 treeUnsortedFix).1 ≠
      some (serializeTree dg0 treeUnsortedFix).2 := by
  decide

/-- C1 (amended).  Codec round-trip: for every Blob, and for every Commit
whose author and message are newline-free and whose timestamp fits `i64`,
`deserialize (serialize B) = some B` (with `B` carrying the hash stamped
by serialization, which equals the digest of the serialized bytes); for
Trees the same holds provided the entry names are NUL-free and the
entries are already in canonical order (sorted by the rendered
name-portion key, as the unique-names invariant of the specification
guarantees for trees the program builds); an out-of-order Tree
round-trips to the canonically re-sorted entry list instead (see the
counterexample). -/
theorem c1_round_trip (digest : List Nat → Hash) :
    (∀ b : Blob,
      deserializeBlob digest (serializeBlob digest b).1 =
        some (serializeBlob digest b).2 ∧
      (serializeBlob digest b).2.hash = digest (serializeBlob digest b).1) ∧
    (∀ c : Commit, (10 : Nat) ∉ c.author → (10 : Nat) ∉ c.msg →
      -(2 ^ 63 : Int) ≤ c.time → c.time < 2 ^ 63 →
      deserializeCommit digest (serializeCommit digest c).1 =
        some (serializeCommit digest c).2 ∧
      (serializeCommit digest c).2.hash = digest (serializeCommit digest c).1) ∧
    (∀ t : Tree, (∀ x ∈ t.entries, (0 : Nat) ∉ x.name) →
      (t.entries.map renderEntry).Sorted rKey →
      deserializeTree digest (serializeTree digest t).1 =
        some (serializeTree digest t).2 ∧
      (serializeTree digest t).2.hash = digest (serializeTree digest t).1) := by
  refine ⟨fun b => ⟨?_, rfl⟩, fun c hA hM h1 h2 => ⟨?_, rfl⟩,
    fun t hwf hsorted => ⟨?_, rfl⟩⟩
  · simp [serializeBlob, deserializeBlob, stripTag_append]
  · show deserializeCommit digest (commitTag ++ commitBody c) = _
    rw [deserializeCommit, stripTag_append]
    have hbody := parseCommitData_body c [] [] [] hA hM h1 h2 rfl
    rw [List.append_nil] at hbody
    simp only [hbody]
    rfl
  · have hser : serializeTree digest t =
        (treeTag ++ (t.entries.map renderEntry).flatten,
         { t with hash := digest (treeTag ++ (t.entries.map renderEntry).flatten) }) := by
      simp only [serializeTree]
      rw [hsorted.insertionSort_eq]
    rw [hser]
    rw [deserializeTree, stripTag_append]
    simp only [parseTreeEntries_flatten t.entries hwf]

/-- C1 (witness): the amended round-trip at concrete objects. -/
theorem c1_round_trip_witness :
    deserializeBlob dg0 (serializeBlob dg0 blobFix).1 =
      some (serializeBlob dg0 blobFix).2 ∧
    deserializeCommit dg0 (serializeCommit dg0 commitFix).1 =
      some (serializeCommit dg0 commitFix).2 ∧
    deserializeTree dg0 (serializeTree dg0 treeSortedFix).1 =
      some (serializeTree dg0 treeSortedFix).2 :=
  ⟨((c1_round_trip dg0).1 blobFix).1,
   ((c1_round_trip dg0).2.1 commitFix (by decide) (by decide) (by decide)
      (by decide)).1,
   ((c1_round_trip dg0).2.2 treeSortedFix (by decide) (by decide)).1⟩

theorem lexLeB_refl (a : List Nat) : lexLeB a a = true :=
  (lexLeB_total a a).elim id id

theorem sorted_perm_eq_of_nodup_key :
    ∀ (l1 l2 : List (List Nat)), l1.Perm l2 → l1.Sorted rKey →
      l2.Sorted rKey → (l1.map (fun x => x.drop 5)).Nodup → l1 = l2 := by
  intro l1
  induction l1 with
  | nil =>
    intro l2 hp _ _ _
    exact hp.nil_eq
  | cons a as ih =>
    intro l2 hp hs1 hs2 hnd
    cases l2 with
    | nil => simpa using hp.symm.nil_eq
    | cons b bs =>
      have hb1 : b ∈ a :: as := hp.symm.subset (List.mem_cons_self b bs)
      have ha2 : a ∈ b :: bs := hp.subset (List.mem_cons_self a as)
      have hs1' := List.sorted_cons.mp hs1
      have hs2' := List.sorted_cons.mp hs2
      have hkab : rKey a b := by
        rcases List.mem_cons.mp hb1 with h | h
        · rw [h]
          exact lexLeB_refl _
        · exact hs1'.1 b h
      have hkba : rKey b a := by
        rcases List.mem_cons.mp ha2 with h | h
        · rw [h]
          exact lexLeB_refl _
        · exact hs2'.1 a h
      have hkey : a.drop 5 = b.drop 5 := lexLeB_antisymm hkab hkba
      have hab : b = a := by
        rcases List.mem_cons.mp hb1 with h | h
        · exact h
        · exfalso
          have hmem : a.drop 5 ∈ as.map (fun x => x.drop 5) := by
            rw [hkey]
            exact List.mem_map_of_mem _ h
          exact (List.nodup_cons.mp hnd).1 hmem
      subst hab
      rw [ih bs hp.cons_inv hs1'.2 hs2'.2 (List.nodup_cons.mp hnd).2]

/-- C7 (counterexample).  Two Trees holding the same entry set — a blob
entry and a tree entry that share the name `"x"` and the hash, added in
the two possible orders — serialize to different bytes: the two rendered
entries compare equal at offset 5, and the sort keeps their insertion
order (`sort_unstable_by` on a two-element slice swaps only on strict
descent, like insertion sort). -/
theorem c7_counterexample :
    treeDup1.entries.Perm treeDup2.entries ∧
    (serializeTree dg0 treeDup1).1 ≠ (serializeTree dg0 treeDup2).1 := by
  constructor
  · decide
  · decide

/-- C7 (amended).  `serialize_tree` emits the encoded entries in
ascending order of the bytes from offset 5 (the name portion), and two
Trees holding the same entry multiset serialize to identical bytes and
are stamped with the same hash provided the rendered offset-5 keys are
pairwise distinct — which the specification's unique-names invariant
guarantees; when two entries share the key (same name and hash,
different kind), the tie keeps insertion order and the bytes can differ. -/
theorem c7_canonical_sort (digest : List Nat → Hash) :
    (∀ t : Tree,
      (serializeTree digest t).1 =
        treeTag ++ (List.insertionSort rKey (t.entries.map renderEntry)).flatten ∧
      (List.insertionSort rKey (t.entries.map renderEntry)).Sorted rKey) ∧
    (∀ t1 t2 : Tree, t1.entries.Perm t2.entries →
      (t1.entries.map fun e => (renderEntry e).drop 5).Nodup →
      (serializeTree digest t1).1 = (serializeTree digest t2).1 ∧
      (serializeTree digest t1).2.hash = (serializeTree digest t2).2.hash) := by
  constructor
  · intro t
    exact ⟨rfl, List.sorted_insertionSort rKey _⟩
  · intro t1 t2 hperm hnd
    have hr : (t1.entries.map renderEntry).Perm (t2.entries.map renderEntry) :=
      hperm.map renderEntry
    have hp1 : (List.insertionSort rKey (t1.entries.map renderEntry)).Perm
        (List.insertionSort rKey (t2.entries.map renderEntry)) :=
      ((List.perm_insertionSort rKey _).trans hr).trans
        (List.perm_insertionSort rKey _).symm
    have hnd1 : ((List.insertionSort rKey (t1.entries.map renderEntry)).map
        (fun x => x.drop 5)).Nodup := by
      have hp2 : ((List.insertionSort rKey (t1.entries.map renderEntry)).map
          (fun x => x.drop 5)).Perm
          ((t1.entries.map renderEntry).map (fun x => x.drop 5)) :=
        (List.perm_insertionSort rKey _).map _
      rw [hp2.nodup_iff, List.map_map]
      exact hnd
    have heq := sorted_perm_eq_of_nodup_key _ _ hp1
      (List.sorted_insertionSort rKey _) (List.sorted_insertionSort rKey _) hnd1
    constructor
    · show treeTag ++ _ = treeTag ++ _
      rw [heq]
    · show digest (treeTag ++ _) = digest (treeTag ++ _)
      rw [heq]

/-- C7 (witness): the amended statement at two concrete trees holding
the same two distinct-name entries in either order. -/
theorem c7_canonical_sort_witness :
    (serializeTree dg0 treeSortedFix).1 = (serializeTree dg0 treeUnsortedFix).1 ∧
    (serializeTree dg0 treeSortedFix).2.hash =
      (serializeTree dg0 treeUnsortedFix).2.hash :=
  (c7_canonical_sort dg0).2 treeSortedFix treeUnsortedFix (by decide) (by decide)


/-- C6 (counterexample).  Deserialization does not reject all trailing
bytes: appending a newline and arbitrary garbage to a serialized commit
still deserializes successfully (only the single line right after the
message is checked for emptiness; later chunks are ignored). -/
theorem c6_commit_trailing_counterexample :
    deserializeCommit dg0
      ((serializeCommit dg0 commitFix).1 ++ 10 :: [71, 65, 82, 66, 65, 71, 69]) ≠
      none := by
  decide

/-- C6 (amended).  Each deserializer returns `none` on an unknown type
prefix; `deserialize_tree` returns `none` on a truncated entry and on
trailing bytes after the entries; `deserialize_commit` returns `none`
when the tree-header hash is un-parseable, when the second header line is
neither `parent ` nor `author ` (missing or out-of-order headers), and
when the timestamp is un-parseable — but, contrary to the original
claim, `deserialize_commit` does not reject trailing bytes after the
recognized structure: it checks only that the line immediately after the
message is empty and accepts arbitrary bytes beyond it. -/
theorem c6_deserialize_mismatch (digest : List Nat → Hash) :
    (∀ obj, stripTag blobTag obj = none → deserializeBlob digest obj = none) ∧
    (∀ obj, stripTag treeTag obj = none → deserializeTree digest obj = none) ∧
    (∀ obj, stripTag commitTag obj = none → deserializeCommit digest obj = none) ∧
    (∀ (es : List TreeEntry) (e' : TreeEntry) (k : Nat),
      (∀ x ∈ es, (0 : Nat) ∉ x.name) → (0 : Nat) ∉ e'.name → 1 ≤ k →
      k < (renderEntry e').length →
      deserializeTree digest
        (treeTag ++ ((es.map renderEntry).flatten ++ (renderEntry e').take k)) =
        none) ∧
    (∀ (es : List TreeEntry) (g : List Nat),
      (∀ x ∈ es, (0 : Nat) ∉ x.name) → g ≠ [] → (0 : Nat) ∉ g →
      deserializeTree digest (treeTag ++ ((es.map renderEntry).flatten ++ g)) =
        none) ∧
    (∀ (hb rest : List Nat), (10 : Nat) ∉ hb → parseHashBytes hb = none →
      deserializeCommit digest
        (commitTag ++ (([116, 114, 101, 101, 32] ++ hb) ++ 10 :: rest)) = none) ∧
    (∀ (h : Hash) (l2 rest : List Nat), (10 : Nat) ∉ l2 →
      stripTag [112, 97, 114, 101, 110, 116, 32] l2 = none →
      stripTag [97, 117, 116, 104, 111, 114, 32] l2 = none →
      deserializeCommit digest
        (commitTag ++ (([116, 114, 101, 101, 32] ++ hashChars h) ++
          10 :: (l2 ++ 10 :: rest))) = none) ∧
    (∀ (h : Hash) (a tb rest : List Nat), (10 : Nat) ∉ a → (10 : Nat) ∉ tb →
      parseI64 tb = none →
      deserializeCommit digest
        (commitTag ++ (([116, 114, 101, 101, 32] ++ hashChars h) ++
          10 :: (([97, 117, 116, 104, 111, 114, 32] ++ a) ++
            10 :: (([116, 105, 109, 101, 32] ++ tb) ++ 10 :: rest)))) = none) ∧
    (∀ (c : Commit) (g : List Nat), (10 : Nat) ∉ c.author →
      (10 : Nat) ∉ c.msg → -(2 ^ 63 : Int) ≤ c.time → c.time < 2 ^ 63 →
      deserializeCommit digest (commitTag ++ (commitBody c ++ 10 :: g)) =
        some ⟨digest (commitTag ++ (commitBody c ++ 10 :: g)), c.tree,
          c.parent, c.author, c.time, c.msg⟩) := by
  refine ⟨?_, ?_, ?_, ?_, ?_, ?_, ?_, ?_, ?_⟩
  · intro obj h
    simp [deserializeBlob, h]
  · intro obj h
    simp [deserializeTree, h]
  · intro obj h
    simp [deserializeCommit, h]
  · intro es e' k hwf he' hk1 hk2
    simp only [deserializeTree, stripTag_append,
      parseTreeEntries_truncated es e' k hwf he' hk1 hk2]
  · intro es g hwf hg hgn
    simp only [deserializeTree, stripTag_append,
      parseTreeEntries_flatten_garbage es g hwf hg hgn]
  · intro hb rest hnl hbad
    rcases hsr : splitSep 10 rest with _ | ⟨c0, cs0⟩
    · exact absurd hsr (splitSep_ne_nil 10 rest)
    have hfree : (10 : Nat) ∉ [116, 114, 101, 101, 32] ++ hb := by
      intro hc
      rcases List.mem_append.mp hc with hc | hc
      · simp at hc
      · exact hnl hc
    have hchunks : splitSep 10 (([116, 114, 101, 101, 32] ++ hb) ++ 10 :: rest) =
        ([116, 114, 101, 101, 32] ++ hb) :: c0 :: cs0 := by
      rw [splitSep_append_sep _ hfree, hsr]
    simp only [deserializeCommit, stripTag_append, parseCommitData, hchunks,
      hbad]
  · intro h l2 rest hnl hp ha
    rcases hsr : splitSep 10 rest with _ | ⟨c0, cs0⟩
    · exact absurd hsr (splitSep_ne_nil 10 rest)
    have hchunks : splitSep 10 (([116, 114, 101, 101, 32] ++ hashChars h) ++
        10 :: (l2 ++ 10 :: rest)) =
        ([116, 114, 101, 101, 32] ++ hashChars h) :: l2 :: c0 :: cs0 := by
      rw [splitSep_append_sep _ (nl_not_mem_treeLine h),
        splitSep_append_sep _ hnl, hsr]
    simp only [deserializeCommit, stripTag_append, parseCommitData, hchunks,
      parseHashBytes_hashChars, hp, ha]
  · intro h a tb rest hA hnl hbad
    rcases hsr : splitSep 10 rest with _ | ⟨c0, cs0⟩
    · exact absurd hsr (splitSep_ne_nil 10 rest)
    have hfree : (10 : Nat) ∉ [116, 105, 109, 101, 32] ++ tb := by
      intro hc
      rcases List.mem_append.mp hc with hc | hc
      · simp at hc
      · exact hnl hc
    have hchunks : splitSep 10 (([116, 114, 101, 101, 32] ++ hashChars h) ++
        10 :: (([97, 117, 116, 104, 111, 114, 32] ++ a) ++
          10 :: (([116, 105, 109, 101, 32] ++ tb) ++ 10 :: rest))) =
        ([116, 114, 101, 101, 32] ++ hashChars h) ::
          ([97, 117, 116, 104, 111, 114, 32] ++ a) ::
          ([116, 105, 109, 101, 32] ++ tb) :: c0 :: cs0 := by
      rw [splitSep_append_sep _ (nl_not_mem_treeLine h),
        splitSep_append_sep _ (nl_not_mem_authorLine hA),
        splitSep_append_sep _ hfree, hsr]
    simp only [deserializeCommit, stripTag_append, parseCommitData, hchunks,
      parseHashBytes_hashChars, stripTag_parent_of_author, hbad]
  · intro c g hA hM h1 h2
    have hbody := parseCommitData_body c (10 :: g) [] (splitSep 10 g) hA hM h1
      h2 (splitSep_sep_cons 10 g)
    rw [if_pos rfl] at hbody
    rw [deserializeCommit, stripTag_append]
    simp only [hbody]

/-- C6 (witness): the amended statement at concrete inputs, one per
mismatch family. -/
theorem c6_deserialize_mismatch_witness :
    deserializeBlob dg0 [0] = none ∧
    deserializeTree dg0 [1, 2] = none ∧
    deserializeCommit dg0 [3] = none ∧
    deserializeTree dg0
      (treeTag ++ ((([] : List TreeEntry).map renderEntry).flatten ++
        (renderEntry entryFoo).take 3)) = none ∧
    deserializeTree dg0
      (treeTag ++ (([entryFoo].map renderEntry).flatten ++ [65])) = none ∧
    deserializeCommit dg0
      (commitTag ++ (([116, 114, 101, 101, 32] ++ [122]) ++ 10 :: [])) = none ∧
    deserializeCommit dg0
      (commitTag ++ (([116, 114, 101, 101, 32] ++ hashChars hash0) ++
        10 :: ([116, 105, 109, 101] ++ 10 :: []))) = none ∧
    deserializeCommit dg0
      (commitTag ++ (([116, 114, 101, 101, 32] ++ hashChars hash0) ++
        10 :: (([97, 117, 116, 104, 111, 114, 32] ++ [112]) ++
          10 :: (([116, 105, 109, 101, 32] ++ [97, 98]) ++ 10 :: [])))) = none ∧
    deserializeCommit dg0 (commitTag ++ (commitBody commitFix ++ 10 :: [71])) =
      some ⟨dg0 (commitTag ++ (commitBody commitFix ++ 10 :: [71])),
        commitFix.tree, commitFix.parent, commitFix.author, commitFix.time,
        commitFix.msg⟩ := by
  refine ⟨?_, ?_, ?_, ?_, ?_, ?_, ?_, ?_, ?_⟩
  · exact (c6_deserialize_mismatch dg0).1 [0] (by decide)
  · exact (c6_deserialize_mismatch dg0).2.1 [1, 2] (by decide)
  · exact (c6_deserialize_mismatch dg0).2.2.1 [3] (by decide)
  · exact (c6_deserialize_mismatch dg0).2.2.2.1 [] entryFoo 3 (by decide)
      (by decide) (by decide) (by decide)
  · exact (c6_deserialize_mismatch dg0).2.2.2.2.1 [entryFoo] [65] (by decide)
      (by decide) (by decide)
  · exact (c6_deserialize_mismatch dg0).2.2.2.2.2.1 [122] [] (by decide)
      (by decide)
  · exact (c6_deserialize_mismatch dg0).2.2.2.2.2.2.1 hash0 [116, 105, 109, 101]
      [] (by decide) (by decide) (by decide)
  · exact (c6_deserialize_mismatch dg0).2.2.2.2.2.2.2.1 hash0 [112] [97, 98] []
      (by decide) (by decide) (by decide)
  · exact (c6_deserialize_mismatch dg0).2.2.2.2.2.2.2.2 commitFix [71]
      (by decide) (by decide) (by decide) (by decide)


/-- C10 (counterexample).  A commit whose message is `"a\n"` — a message
containing a newline — serializes verbatim, yet deserializing the bytes
does NOT return `none`: it succeeds with the message silently truncated
to `"a"`, and reading the object back under its stamped hash succeeds
(no `ObjectCorrupted`). -/
theorem c10_counterexample :
    (10 : Nat) ∈ commitNl.msg ∧
    deserializeCommit dg0 (serializeCommit dg0 commitNl).1 =
      some ⟨dg0 (serializeCommit dg0 commitNl).1, mkHash 3, none, [112], 0, [97]⟩ ∧
    readCommitT dg0
      (fun h => if h = hash0 then some (serializeCommit dg0 commitNl).1 else none)
      hash0 = .ok ⟨hash0, mkHash 3, none, [112], 0, [97]⟩ := by
  refine ⟨by decide, by decide, by decide⟩

/-- C10 (amended).  `serialize_commit` embeds the author and message
verbatim.  For a commit with newline-free author and in-range timestamp
whose message contains a newline followed by a non-empty line (i.e. the
chunk after the message's first newline is non-empty), deserialization of
the serialized bytes returns `none`, and `read_commit` of those stored
bytes reports `ObjectCorrupted` — the commit cannot be read back.  When
the first newline of the message is instead at its end or directly
followed by another newline, deserialization succeeds with a truncated
message (see the counterexample), so the original claim fails. -/
theorem c10_newline_commit (digest : List Nat → Hash) :
    (∀ c : Commit, (serializeCommit digest c).1 =
      commitTag ++ ([116, 114, 101, 101, 32] ++ hashChars c.tree ++ [10] ++
        (match c.parent with
         | some p => [112, 97, 114, 101, 110, 116, 32] ++ hashChars p ++ [10]
         | none => []) ++
        [97, 117, 116, 104, 111, 114, 32] ++ c.author ++ [10] ++
        [116, 105, 109, 101, 32] ++ renderInt c.time ++ [10] ++
        [10] ++ c.msg ++ [10])) ∧
    (∀ (c : Commit) (m0 m1 r : List Nat), (10 : Nat) ∉ c.author →
      -(2 ^ 63 : Int) ≤ c.time → c.time < 2 ^ 63 →
      c.msg = m0 ++ 10 :: (m1 ++ r) → (10 : Nat) ∉ m0 → (10 : Nat) ∉ m1 →
      m1 ≠ [] → (r = [] ∨ ∃ r', r = 10 :: r') →
      deserializeCommit digest (serializeCommit digest c).1 = none ∧
      ∀ store : ObjStore,
        store ((serializeCommit digest c).2.hash) =
          some ((serializeCommit digest c).1) →
        readCommitT digest store ((serializeCommit digest c).2.hash) =
          .error .objectCorrupted) := by
  constructor
  · intro c
    show commitTag ++ commitBody c = _
    simp [commitBody, List.append_assoc]
  · intro c m0 m1 r hA h1 h2 hmsg hm0 hm1 hne hr
    have hbodyeq : commitBody c = commitBody { c with msg := m0 } ++
        (m1 ++ (r ++ [10])) := by
      simp [commitBody, hmsg, List.append_assoc]
    have hsplit : ∃ rs, splitSep 10 (m1 ++ (r ++ [10])) = m1 :: rs := by
      rcases hr with rfl | ⟨r', rfl⟩
      · exact ⟨splitSep 10 [], by rw [List.nil_append, splitSep_append_sep _ hm1]⟩
      · exact ⟨splitSep 10 (r' ++ [10]), by
          rw [List.cons_append, splitSep_append_sep _ hm1]⟩
    obtain ⟨rs, hrs⟩ := hsplit
    have hbody := parseCommitData_body { c with msg := m0 } (m1 ++ (r ++ [10]))
      m1 rs hA hm0 h1 h2 hrs
    rw [if_neg hne] at hbody
    have hdeser : deserializeCommit digest (serializeCommit digest c).1 = none := by
      show deserializeCommit digest (commitTag ++ commitBody c) = none
      rw [deserializeCommit, stripTag_append, hbodyeq]
      simp only [hbody]
    refine ⟨hdeser, fun store hstore => ?_⟩
    rw [readCommitT, readObjectT, hstore]
    simp only [hdeser]


/-- C10 (witness): the amended statement at a commit with message
`"a\nb"`: it serializes but can never be read back. -/
theorem c10_newline_commit_witness :
    deserializeCommit dg0 (serializeCommit dg0 commitNl2).1 = none ∧
    readCommitT dg0
      (fun h => if h = (serializeCommit dg0 commitNl2).2.hash
        then some (serializeCommit dg0 commitNl2).1 else none)
      (serializeCommit dg0 commitNl2).2.hash = .error .objectCorrupted := by
  have h := (c10_newline_commit dg0).2 commitNl2 [97] [98] [] (by decide)
    (by decide) (by decide) (by decide) (by decide) (by decide) (by decide)
    (Or.inl rfl)
  exact ⟨h.1, h.2 _ (by simp)⟩


/-- C5.  `read_blob`/`read_tree`/`read_commit(h)` return `Ok` only with
an object whose freshly stamped hash equals `h`; a successful
deserialization with a different stamped hash, or a failed
deserialization, yields `ObjectCorrupted`; a missing object file yields
`ObjectNotFound` (not `IoError`). -/
theorem c5_read_validation (digest : List Nat → Hash) (store : ObjStore)
    (h : Hash) :
    (∀ b, readBlobT digest store h = .ok b → b.hash = h) ∧
    (∀ t, readTreeT digest store h = .ok t → t.hash = h) ∧
    (∀ c, readCommitT digest store h = .ok c → c.hash = h) ∧
    (store h = none →
      readBlobT digest store h = .error .objectNotFound ∧
      readTreeT digest store h = .error .objectNotFound ∧
      readCommitT digest store h = .error .objectNotFound) ∧
    (∀ bs, store h = some bs →
      (∀ b, deserializeBlob digest bs = some b → b.hash ≠ h →
        readBlobT digest store h = .error .objectCorrupted) ∧
      (deserializeBlob digest bs = none →
        readBlobT digest store h = .error .objectCorrupted) ∧
      (∀ t, deserializeTree digest bs = some t → t.hash ≠ h →
        readTreeT digest store h = .error .objectCorrupted) ∧
      (deserializeTree digest bs = none →
        readTreeT digest store h = .error .objectCorrupted) ∧
      (∀ c, deserializeCommit digest bs = some c → c.hash ≠ h →
        readCommitT digest store h = .error .objectCorrupted) ∧
      (deserializeCommit digest bs = none →
        readCommitT digest store h = .error .objectCorrupted)) := by
  refine ⟨?_, ?_, ?_, fun hs => ⟨?_, ?_, ?_⟩, fun bs hs => ⟨?_, ?_, ?_, ?_, ?_, ?_⟩⟩
  · intro b hb
    rcases hs : store h with _ | bs
    · simp [readBlobT, readObjectT, hs] at hb
    · rcases hd : deserializeBlob digest bs with _ | b'
      · simp [readBlobT, readObjectT, hs, hd] at hb
      · simp only [readBlobT, readObjectT, hs, hd] at hb
        by_cases hbh : b'.hash = h
        · rw [if_pos hbh] at hb
          simp only [Except.ok.injEq] at hb
          rw [← hb]
          exact hbh
        · rw [if_neg hbh] at hb
          simp at hb
  · intro t ht
    rcases hs : store h with _ | bs
    · simp [readTreeT, readObjectT, hs] at ht
    · rcases hd : deserializeTree digest bs with _ | t'
      · simp [readTreeT, readObjectT, hs, hd] at ht
      · simp only [readTreeT, readObjectT, hs, hd] at ht
        by_cases hth : t'.hash = h
        · rw [if_pos hth] at ht
          simp only [Except.ok.injEq] at ht
          rw [← ht]
          exact hth
        · rw [if_neg hth] at ht
          simp at ht
  · intro c hc
    rcases hs : store h with _ | bs
    · simp [readCommitT, readObjectT, hs] at hc
    · rcases hd : deserializeCommit digest bs with _ | c'
      · simp [readCommitT, readObjectT, hs, hd] at hc
      · simp only [readCommitT, readObjectT, hs, hd] at hc
        by_cases hch : c'.hash = h
        · rw [if_pos hch] at hc
          simp only [Except.ok.injEq] at hc
          rw [← hc]
          exact hch
        · rw [if_neg hch] at hc
          simp at hc
  · simp [readBlobT, readObjectT, hs]
  · simp [readTreeT, readObjectT, hs]
  · simp [readCommitT, readObjectT, hs]
  · intro b hd hne
    simp only [readBlobT, readObjectT, hs, hd]
    rw [if_neg hne]
  · intro hd
    simp [readBlobT, readObjectT, hs, hd]
  · intro t hd hne
    simp only [readTreeT, readObjectT, hs, hd]
    rw [if_neg hne]
  · intro hd
    simp [readTreeT, readObjectT, hs, hd]
  · intro c hd hne
    simp only [readCommitT, readObjectT, hs, hd]
    rw [if_neg hne]
  · intro hd
    simp [readCommitT, readObjectT, hs, hd]

/-- C5 (witness): the validation behaviour at a concrete store holding a
valid blob under its own hash, the same bytes under a wrong name, and
un-parseable bytes. -/
theorem c5_read_validation_witness :
    (⟨hash0, [104, 105]⟩ : Blob).hash = hash0 ∧
    (⟨hash0, []⟩ : Tree).hash = hash0 ∧
    readBlobT dg0 storeFix (mkHash 7) = .error .objectNotFound ∧
    readTreeT dg0 storeFix (mkHash 7) = .error .objectNotFound ∧
    readCommitT dg0 storeFix (mkHash 7) = .error .objectNotFound ∧
    readBlobT dg0 storeFix (mkHash 9) = .error .objectCorrupted ∧
    readBlobT dg0 storeFix (mkHash 8) = .error .objectCorrupted ∧
    readTreeT dg0 storeFix (mkHash 8) = .error .objectCorrupted ∧
    readCommitT dg0 storeFix (mkHash 8) = .error .objectCorrupted := by
  refine ⟨?_, ?_, ?_, ?_, ?_, ?_, ?_, ?_, ?_⟩
  · exact (c5_read_validation dg0 storeFix hash0).1 _ (by decide)
  · exact (c5_read_validation dg0 (fun _ => some treeTag) hash0).2.1 _ (by decide)
  · exact ((c5_read_validation dg0 storeFix (mkHash 7)).2.2.2.1 (by decide)).1
  · exact ((c5_read_validation dg0 storeFix (mkHash 7)).2.2.2.1 (by decide)).2.1
  · exact ((c5_read_validation dg0 storeFix (mkHash 7)).2.2.2.1 (by decide)).2.2
  · exact ((c5_read_validation dg0 storeFix (mkHash 9)).2.2.2.2
      (blobTag ++ [104, 105]) (by decide)).1 ⟨hash0, [104, 105]⟩ (by decide)
      (by decide)
  · exact ((c5_read_validation dg0 storeFix (mkHash 8)).2.2.2.2 [1, 2, 3]
      (by decide)).2.1 (by decide)
  · exact ((c5_read_validation dg0 storeFix (mkHash 8)).2.2.2.2 [1, 2, 3]
      (by decide)).2.2.2.1 (by decide)
  · exact ((c5_read_validation dg0 storeFix (mkHash 8)).2.2.2.2 [1, 2, 3]
      (by decide)).2.2.2.2.2 (by decide)


/-- C8 (counterexample).  `write_object` is not "write to a temporary
file and rename": on a store without the object, the exact filesystem
call sequence is a stat of the final path followed by a single direct
write to it — no rename and no temporary path are ever issued. -/
theorem c8_no_temp_rename_counterexample :
    writeObjectOps (fun _ => none) hash0 [1, 2, 3] =
      [FsOp.statP hash0, FsOp.writeP hash0 [1, 2, 3]] := by
  decide

/-- C8 (amended).  The object-store write is a no-op when a file named
by the hash already exists (its only filesystem call is the existence
check); otherwise it writes the bytes directly to the final path with a
single `fs::write` (no temporary file, no rename); writing the same
object twice succeeds and leaves the stored file (and the whole store)
unchanged. -/
theorem c8_write_idempotent :
    (∀ (store : ObjStore) (h : Hash) (obj b : List Nat), store h = some b →
      writeObjectSt store h obj = store ∧
      writeObjectOps store h obj = [FsOp.statP h]) ∧
    (∀ (store : ObjStore) (h : Hash) (obj : List Nat), store h = none →
      writeObjectSt store h obj h = some obj ∧
      writeObjectOps store h obj = [FsOp.statP h, FsOp.writeP h obj]) ∧
    (∀ (store : ObjStore) (h : Hash) (obj : List Nat),
      writeObjectSt (writeObjectSt store h obj) h obj = writeObjectSt store h obj) := by
  refine ⟨?_, ?_, ?_⟩
  · intro store h obj b hs
    constructor
    · simp [writeObjectSt, hs]
    · simp [writeObjectOps, hs]
  · intro store h obj hs
    constructor
    · simp [writeObjectSt, hs]
    · simp [writeObjectOps, hs]
  · intro store h obj
    by_cases hs : (store h).isSome
    · simp [writeObjectSt, hs]
    · simp only [writeObjectSt, hs, if_false, Bool.false_eq_true]
      rw [if_pos (by simp)]

/-- C8 (witness): idempotent writes at a concrete store. -/
theorem c8_write_idempotent_witness :
    writeObjectSt (fun _ => some [9]) hash0 [1] = (fun _ => some [9]) ∧
    writeObjectOps (fun _ => some [9]) hash0 [1] = [FsOp.statP hash0] ∧
    writeObjectSt (fun _ => none) hash0 [1] hash0 = some [1] ∧
    writeObjectOps (fun _ => none) hash0 [1] =
      [FsOp.statP hash0, FsOp.writeP hash0 [1]] := by
  refine ⟨?_, ?_, ?_, ?_⟩
  · exact (c8_write_idempotent.1 (fun _ => some [9]) hash0 [1] [9] rfl).1
  · exact (c8_write_idempotent.1 (fun _ => some [9]) hash0 [1] [9] rfl).2
  · exact (c8_write_idempotent.2.1 (fun _ => none) hash0 [1] rfl).1
  · exact (c8_write_idempotent.2.1 (fun _ => none) hash0 [1] rfl).2

/-- Once both lockstep iterators are exhausted, the common-ancestor loop
never exits: every amount of fuel is consumed without a result. -/
theorem caLoop_none_none (cstore : Hash → Option Commit) :
    ∀ (f : Nat) (ma mb : List Hash), caLoop cstore f none none ma mb = none := by
  intro f
  induction f with
  | zero => intro ma mb; rfl
  | succ f ih => intro ma mb; exact ih ma mb

/-- C2 (code_bug evidence).  With two parentless root commits present in
the store, `into_common_ancestor` neither returns a commit nor fails
with `ObjectNotFound`: the loop runs forever (for every fuel bound the
fuel-indexed loop is still running), while the specification says this
case terminates with `ObjectNotFound`. -/
theorem c2_no_common_ancestor_hangs :
    ∀ fuel : Nat,
      caLoop csDisj fuel (some rootC) (some otherRootC) [] [] = none := by
  intro fuel
  cases fuel with
  | zero => rfl
  | succ f =>
    have hstep : caLoop csDisj (f + 1) (some rootC) (some otherRootC) [] [] =
        caLoop csDisj f none none [mkHash 1] [mkHash 3] := by
      rfl
    rw [hstep]
    exact caLoop_none_none csDisj f _ _

/-- C9.  When HEAD does not resolve to a commit hash (a branch that was
never committed to), `check_safe_switch` panics on its `unwrap` instead
of returning an error, and therefore non-forced `checkout`, `pull` and
`push` panic as well (result `none`, not `some (.error e)`). -/
theorem c9_unresolved_head_panics (digest : List Nat → Hash)
    (cstore : Hash → Option Commit) (tstore : Hash → Option Tree)
    (bstore : Hash → Option Blob) :
    ∀ (r : Repo) (wt : Wt) (b : String) (h : Hash)
      (restPull restPush : PE Unit),
      r.head = .branch b → lookupB r.branches b = none →
      checkSafeSwitch digest cstore tstore r wt = none ∧
      checkoutM digest cstore tstore bstore r wt (.hash h) false = none ∧
      pullM digest cstore tstore r wt restPull = none ∧
      pushM digest cstore tstore r wt restPush = none := by
  intro r wt b h restPull restPush hhead hlook
  have hcss : checkSafeSwitch digest cstore tstore r wt = none := by
    simp [checkSafeSwitch, headHash, hhead, hlook]
  refine ⟨hcss, ?_, ?_, ?_⟩
  · simp [checkoutM, resolveRef, hcss, peBind]
  · simp [pullM, hcss, peBind]
  · simp [pushM, hcss, peBind]

/-- C9 (witness): panic of all four operations on a freshly initialised
repository whose branch `main` has never been committed to. -/
theorem c9_unresolved_head_panics_witness :
    checkSafeSwitch dg0 csFix tsFix repUnborn [] = none ∧
    checkoutM dg0 csFix tsFix bsFix repUnborn [] (.hash (mkHash 1)) false = none ∧
    pullM dg0 csFix tsFix repUnborn [] (peOk ()) = none ∧
    pushM dg0 csFix tsFix repUnborn [] (peOk ()) = none :=
  c9_unresolved_head_panics dg0 csFix tsFix bsFix repUnborn [] "main" (mkHash 1)
    (peOk ()) (peOk ()) rfl rfl


/-- C4.  `check_safe_switch` succeeds exactly when every entry of the
status computed against the current HEAD's tree is `Unmodified` or
`Missing`; if any entry is `Untracked`, `Added`, `Deleted` or
`Modified`, it fails with `CheckoutFailed`. -/
theorem c4_safe_switch_iff (digest : List Nat → Hash)
    (cstore : Hash → Option Commit) (tstore : Hash → Option Tree) :
    ∀ (r : Repo) (wt : Wt) (oh : Hash) (c : Commit) (t : Tree)
      (st : List (Path × FileStatus)),
      headHash r = .ok oh → cstore oh = some c → tstore c.tree = some t →
      statusOf digest tstore wt r.tracklist t = peOk st →
      ((checkSafeSwitch digest cstore tstore r wt = peOk ()) ↔
        ∀ e ∈ st, e.2 = FileStatus.unmodified ∨ e.2 = FileStatus.missing) ∧
      ((∃ e ∈ st, e.2 = FileStatus.untracked ∨ e.2 = FileStatus.added ∨
          e.2 = FileStatus.deleted ∨ e.2 = FileStatus.modified) →
        checkSafeSwitch digest cstore tstore r wt = peErr .checkoutFailed) := by
  intro r wt oh c t st hh hc ht hst
  have hred : checkSafeSwitch digest cstore tstore r wt =
      if st.all (fun e =>
          e.2 = FileStatus.unmodified ∨ e.2 = FileStatus.missing) then peOk ()
      else peErr .checkoutFailed := by
    simp only [checkSafeSwitch, hh, hc, ht, hst, peBind, peOk]
  constructor
  · rw [hred]
    by_cases hall : st.all (fun e =>
        e.2 = FileStatus.unmodified ∨ e.2 = FileStatus.missing) = true
    · rw [if_pos hall]
      simp only [List.all_eq_true, decide_eq_true_eq] at hall
      exact ⟨fun _ => hall, fun _ => rfl⟩
    · rw [if_neg hall]
      simp only [List.all_eq_true, decide_eq_true_eq] at hall
      constructor
      · intro hbad
        exact absurd hbad (by simp [peErr, peOk])
      · intro hgood
        exact absurd hgood hall
  · rintro ⟨e, he, hbad⟩
    have hfalse : ¬st.all (fun e =>
        e.2 = FileStatus.unmodified ∨ e.2 = FileStatus.missing) = true := by
      simp only [List.all_eq_true, decide_eq_true_eq]
      intro hgood
      have := hgood e he
      rcases hbad with h | h | h | h <;> rw [h] at this <;> simp at this
    rw [hred, if_neg hfalse]

/-- C4 (witness): an empty worktree against the empty HEAD tree is safe
to switch. -/
theorem c4_safe_switch_iff_witness :
    checkSafeSwitch dg0 csFix tsFix repFix [] = peOk () :=
  ((c4_safe_switch_iff dg0 csFix tsFix repFix [] (mkHash 1) rootC
      ⟨mkHash 11, []⟩ [] (by decide) (by decide) (by decide)
      (by decide)).1).mpr (by simp)


theorem lookupB_insertB (l : List (String × Hash)) (b : String) (h : Hash) :
    lookupB (insertB l b h) b = some h := by
  induction l with
  | nil => simp [insertB, lookupB]
  | cons kv rest ih =>
    obtain ⟨k, v⟩ := kv
    by_cases hk : k = b
    · simp [insertB, hk, lookupB]
    · simp [insertB, hk, lookupB, ih]

/-- C3.  Merge identities: (i) when the common ancestor equals theirs,
`merge` returns `NothingToMerge`; (ii) in particular merging HEAD's own
commit (ours = theirs, with a readable parent chain step) returns
`NothingToMerge`; (iii) when the common ancestor equals ours (and not
theirs), `merge` fast-forwards: it checks out theirs non-forced, and —
HEAD being a branch — moves that branch to theirs and leaves HEAD naming
the branch, returning `FastForward`. -/
theorem c3_merge_identities (digest : List Nat → Hash)
    (cstore : Hash → Option Commit) (tstore : Hash → Option Tree)
    (bstore : Hash → Option Blob)
    (threeWayK : Repo → Wt → Commit → Commit → Commit →
      PE (MergeStrategy × Repo × Wt)) :
    (∀ (r : Repo) (wt : Wt) (th oh : Hash) (ours theirs base : Commit)
      (fuel : Nat),
      headHash r = .ok oh → cstore oh = some ours → cstore th = some theirs →
      caLoop cstore fuel (some ours) (some theirs) [] [] = some (.ok base) →
      base.hash = theirs.hash →
      mergeM digest cstore tstore bstore threeWayK r wt th fuel =
        peErr .nothingToMerge) ∧
    (∀ (r : Repo) (wt : Wt) (oh : Hash) (ours : Commit) (fuel : Nat),
      headHash r = .ok oh → cstore oh = some ours →
      (∀ p, ours.parent = some p → ∃ pc, cstore p = some pc) →
      mergeM digest cstore tstore bstore threeWayK r wt oh (fuel + 1) =
        peErr .nothingToMerge) ∧
    (∀ (r : Repo) (wt : Wt) (th oh : Hash) (ours theirs base : Commit)
      (fuel : Nat) (b : String) (r1 : Repo) (wt1 : Wt) (otree : Tree),
      r.head = .branch b →
      headHash r = .ok oh → cstore oh = some ours → cstore th = some theirs →
      caLoop cstore fuel (some ours) (some theirs) [] [] = some (.ok base) →
      base.hash = ours.hash → base.hash ≠ theirs.hash →
      tstore ours.tree = some otree →
      isCleanM digest tstore r wt otree = peOk () →
      checkoutM digest cstore tstore bstore r wt (.hash theirs.hash) false =
        peOk (r1, wt1) →
      mergeM digest cstore tstore bstore threeWayK r wt th fuel =
        peOk (MergeStrategy.fastForward,
          { setBranchM r1 b theirs.hash with head := Reference.branch b },
          wt1) ∧
      lookupB (setBranchM r1 b theirs.hash).branches b = some theirs.hash) := by
  have part1 : ∀ (r : Repo) (wt : Wt) (th oh : Hash)
      (ours theirs base : Commit) (fuel : Nat),
      headHash r = .ok oh → cstore oh = some ours → cstore th = some theirs →
      caLoop cstore fuel (some ours) (some theirs) [] [] = some (.ok base) →
      base.hash = theirs.hash →
      mergeM digest cstore tstore bstore threeWayK r wt th fuel =
        peErr .nothingToMerge := by
    intro r wt th oh ours theirs base fuel hh ho hth hca hbt
    simp only [mergeM, hh, ho, hth, commonAncestor, hca]
    rw [if_pos hbt]
  refine ⟨part1, ?_, ?_⟩
  · intro r wt oh ours fuel hh ho hpar
    have hca : caLoop cstore (fuel + 1) (some ours) (some ours) [] [] =
        some (.ok ours) := by
      rcases hp : ours.parent with _ | p
      · simp [caLoop, iterNext, hp]
      · obtain ⟨pc, hpc⟩ := hpar p hp
        simp [caLoop, iterNext, hp, hpc]
    exact part1 r wt oh oh ours ours ours (fuel + 1) hh ho ho hca rfl
  · intro r wt th oh ours theirs base fuel b r1 wt1 otree hheadb hh ho hth hca
      hbo hbt hot hclean hco
    constructor
    · simp only [mergeM, hh, ho, hth, commonAncestor, hca]
      rw [if_neg hbt]
      simp only [hot, hclean, peBind, peOk]
      rw [if_pos hbo]
      simp only [hheadb, hco, peBind, peOk]
    · exact lookupB_insertB r1.branches b theirs.hash

/-- C3 (witness): at a concrete two-commit history (`childC` on top of
`rootC`, branch `main` at `rootC`): merging `rootC` itself is
`NothingToMerge`; merging `childC` fast-forwards, moving `main` to
`childC` with HEAD still naming the branch. -/
theorem c3_merge_identities_witness :
    mergeM dg0 csFix tsFix bsFix twKFix repFix [] (mkHash 1) 2 =
      peErr .nothingToMerge ∧
    mergeM dg0 csFix tsFix bsFix twKFix repFix [] (mkHash 2) 2 =
      peOk (MergeStrategy.fastForward,
        (⟨.branch "main", [("main", mkHash 2)], []⟩ : Repo), []) ∧
    lookupB (setBranchM (⟨.hash (mkHash 2), [("main", mkHash 1)], []⟩ : Repo)
      "main" childC.hash).branches "main" = some childC.hash := by
  have h := (c3_merge_identities dg0 csFix tsFix bsFix twKFix).2.2 repFix []
    (mkHash 2) (mkHash 1) rootC childC rootC 2 "main"
    (⟨.hash (mkHash 2), [("main", mkHash 1)], []⟩ : Repo) []
    (⟨mkHash 11, []⟩ : Tree) rfl (by decide) (by decide) (by decide)
    (by decide) rfl (by decide) (by decide) (by decide) (by decide)
  refine ⟨?_, ?_, h.2⟩
  · exact (c3_merge_identities dg0 csFix tsFix bsFix twKFix).2.1 repFix []
      (mkHash 1) rootC 1 (by decide) (by decide)
      (fun p hp => by simp [rootC] at hp)
  · exact h.1.trans (by decide)

end Gnew
